import Mathlib

/-!
Verification development for `src/indexer.py` (batocera-utils).

The Python source is shallowly embedded: pure functions become Lean
functions, the filesystem is a snapshot data type (`FSNode`), printing
becomes an explicit log list, and exceptions become an error component of
the result.  Machine floats appear in the source only as the quotient
`bytes / factor` with `factor` a power of 1024, hence of two: the binary64
value of that quotient is the 53-significant-bit rounding of `bytes` (ties
to even) divided exactly by the factor, so the double is carried as an
exact rational represented by a numerator/denominator pair of naturals,
with comparisons and fixed-point decimal formatting carried out exactly on
it (Python `{:.2f}` fixed-point formatting of a double is round-half-to-even
on the exact value of the double, mirrored here).
`stat` metadata lives in the snapshot, so the stat call itself is total in
the model; the `except` branch that skips an entry on a failing stat is
therefore unreachable here and is not represented.

The file is organised as definitions first (the embedding, with only the
auxiliary facts its termination arguments require), then the theorems.
-/

namespace Indexer

/-! ## Definitions: SizeFormatter (indexer.py lines 48-73) -/

/-- The table `pretty_size.UNITS_MAPPING` from the source: factors are powers of 1024,
largest first. -/
def UNITS_MAPPING : List (Nat × String) :=
  [(1024 ^ 5, "P"), (1024 ^ 4, "T"), (1024 ^ 3, "G"),
   (1024 ^ 2, "M"), (1024 ^ 1, "K"), (1024 ^ 0, "B")]

/-- The `for factor, suffix in UNITS_MAPPING: if bytes >= factor: break` loop:
the first pair whose factor is at most `bytes`; when the loop exhausts
(only possible for `bytes = 0`) the loop variables retain the last pair
`(1, "B")`, which is also the default returned here. -/
def selectUnit (bytes : Nat) : Nat × String :=
  (UNITS_MAPPING.find? (fun fs => bytes ≥ fs.1)).getD (1, "B")

/-- Round-half-to-even of the exact rational `n / d` (with `d > 0`), the
rounding Python applies when formatting with `{:.2f}`/`{:.1f}`. -/
def divRoundHalfEven (n d : Nat) : Nat :=
  let q := n / d
  let r := n % d
  if 2 * r < d then q
  else if d < 2 * r then q + 1
  else if q % 2 = 0 then q else q + 1

/-- Number of binary digits of `n` (zero for zero); the first argument is
fuel, so the recursion is structural and the kernel can evaluate it. -/
def bitLenAux : Nat → Nat → Nat
  | 0, _ => 0
  | fuel + 1, n => if n = 0 then 0 else bitLenAux fuel (n / 2) + 1

/-- Number of binary digits of `n`. -/
def bitLen (n : Nat) : Nat := bitLenAux n n

/-- The IEEE-754 binary64 value of the integer `n`, as an exact natural:
`n` rounded to 53 significant bits, ties to even.  Python computes
`bytes / factor` in binary64; every factor of `UNITS_MAPPING` is a power
of two, so scaling is exact and the double equals `fp53 bytes` divided
exactly by the factor (valid below the binary64 overflow threshold, far
beyond any real size; past it Python raises `OverflowError`). -/
def fp53 (n : Nat) : Nat :=
  if n < 2 ^ 53 then n
  else
    let k := bitLen n - 53
    let q := n / 2 ^ k
    let r := n % 2 ^ k
    let m := 2 ^ k / 2
    (if m < r ∨ (r = m ∧ q % 2 = 1) then q + 1 else q) * 2 ^ k

/-- Left-pad a digit string with zeros to `width` characters. -/
def padZeros (width : Nat) (s : String) : String :=
  String.mk (List.replicate (width - s.length) '0') ++ s

/-- Python fixed-point formatting (`{:.prec f}`) of the exact rational
`n / d` with `prec` digits after the decimal point. -/
def fmtFixed (n d prec : Nat) : String :=
  let m := divRoundHalfEven (n * 10 ^ prec) d
  toString (m / 10 ^ prec) ++ "." ++ padZeros prec (toString (m % 10 ^ prec))

/-- The function `pretty_size` from the source.  `raw_amount = bytes / factor`
is a binary64 quotient: the exact rational `fp53 bytes / factor`.  The branch
tests `raw_amount < 10` and `raw_amount < 100` compare that rational exactly
(`fp53 bytes < 10 * factor`), and `int(raw_amount)` truncates toward zero,
i.e. natural division of `fp53 bytes` by the factor. -/
def pretty_size (bytes : Nat) : String :=
  let fs := selectUnit bytes
  let factor := fs.1
  let d := fp53 bytes
  let amount :=
    if factor = 1 then toString (d / factor)
    else if d < 10 * factor then fmtFixed d factor 2
    else if d < 100 * factor then fmtFixed d factor 1
    else toString (d / factor)
  amount ++ " " ++ fs.2

/-- Written from the specification text (spec.md section 4.1) as amended,
for refinement against `pretty_size`: select the largest unit among the
tiers whose factor is `≤ bytes` (the B tier, factor 1, is the stated
fallback); the amount is the binary64 quotient of the input by the factor;
render a truncated integer for unit B, two decimals when the amount is
below 10, one decimal below 100, else a truncated integer. -/
def SizeFormatter_format (bytes : Nat) : String :=
  let tiers := UNITS_MAPPING.filter (fun t => t.1 ≤ bytes)
  let sel := tiers.foldl (fun acc t => if acc.1 < t.1 then t else acc) (1, "B")
  let d := fp53 bytes
  let amount :=
    if sel.2 = "B" then toString (d / sel.1)
    else if d < 10 * sel.1 then fmtFixed d sel.1 2
    else if d < 100 * sel.1 then fmtFixed d sel.1 1
    else toString (d / sel.1)
  amount ++ " " ++ sel.2

/-! ## Definitions: options, entries and the listing generator -/

/-- The argparse result consumed by the walker: positional start directory,
`--all`, `--filter` (absent by default), `--output-file` (default
index.html), `--recursive`, `--verbose`. -/
structure Opts where
  top_dir : String
  all : Bool
  filter : Option String
  output_file : String
  recursive : Bool
  verbose : Bool
deriving DecidableEq

inductive EKind where
  | efile (size : Nat) (mtime : Nat)
  | edir (mtime : Nat)
  | enone
deriving DecidableEq

structure Entry where
  name : String
  symlink : Bool
  writable : Bool
  kind : EKind
deriving DecidableEq

/-- Python `entry.is_file()` (follows symlinks). -/
def Entry.is_file (e : Entry) : Bool :=
  match e.kind with | .efile _ _ => true | _ => false

/-- Python `entry.is_dir()` (follows symlinks). -/
def Entry.is_dir (e : Entry) : Bool :=
  match e.kind with | .edir _ => true | _ => false

/-- The `JinjaEntry` dataclass from the source. -/
structure JinjaEntry where
  path : String
  entrytype : String
  name : String
  size_bytes : Int
  size_pretty : String
  last_modified_iso : String
  last_modified_human_readable : String
deriving DecidableEq

/-- Modelled from the spec: `datetime.fromtimestamp(..).isoformat()` is not
part of the embedded program logic; it is abstracted as an injective
rendering of the raw mtime (the claims depend only on its determinism). -/
def isoTimestamp (mt : Nat) : String := "iso:" ++ toString mt

/-- Modelled from the spec: `strftime("%c")`, abstracted like
`isoTimestamp`. -/
def humanTimestamp (mt : Nat) : String := "human:" ++ toString mt

/-- Python `str.lower()` as used on entry names and the output filename
(ASCII lowering; the names involved are ASCII). -/
def strLower (s : String) : String := String.mk (s.data.map Char.toLower)

/-- Python `os.path.join` / `pathlib` joining of one extra component on POSIX;
`Path(".") / n` is `n`. -/
def pjoin (p n : String) : String := if p = "." then n else p ++ "/" ++ n

/-- The local variable `entry_path` of `entries2jinja` after the try block:
assigned the bare name for a file, the name joined with the lowercased
output filename for a directory, and never assigned (`none`) otherwise. -/
def entry_path (opts : Opts) (e : Entry) : Option String :=
  match e.kind with
  | .efile _ _ => some e.name
  | .edir _ => some (pjoin e.name (strLower opts.output_file))
  | .enone => none

/-- The `entry_type` if/elif chain of `entries2jinja` (lines 113-128). -/
def entry_type (e : Entry) : String :=
  if e.is_dir && !e.symlink then "folder"
  else if e.is_dir && e.symlink then "folder-shortcut"
  else if e.is_file && e.symlink then "file-shortcut"
  else "file"

/-- The `JinjaEntry` yielded for one surviving entry. -/
def toJinja (opts : Opts) (e : Entry) : JinjaEntry where
  path := (entry_path opts e).getD ""
  entrytype := entry_type e
  name := e.name
  size_bytes := match e.kind with | .efile sz _ => (sz : Int) | _ => -1
  size_pretty := match e.kind with | .efile sz _ => pretty_size sz | _ => "&mdash;"
  last_modified_iso :=
    match e.kind with
    | .efile _ mt => isoTimestamp mt
    | .edir mt => isoTimestamp mt
    | .enone => ""
  last_modified_human_readable :=
    match e.kind with
    | .efile _ mt => humanTimestamp mt
    | .edir mt => humanTimestamp mt
    | .enone => "-"

/-- The warning printed for a non-symlink entry failing the `os.access`
write check (the absolute path at the start of the printed line is abstracted to
the entry name). -/
def warnUnwritable (e : Entry) : String :=
  "*** WARNING *** entry " ++ e.name ++ " is not writable! SKIPPING!"

/-- The `dir-symlink` / `file-symlink` console prints. -/
def symlinkLogs (e : Entry) : List String :=
  if e.is_dir && e.symlink then ["dir-symlink " ++ e.name]
  else if e.is_file && e.symlink then ["file-symlink " ++ e.name]
  else []

/-- The generator `entries2jinja` (indexer.py lines 76-137): produces the yielded
listing and the printed log lines, or the uncaught exception text.
An entry that resolves to neither file nor directory leaves `entry_path`
unassigned, so constructing its `JinjaEntry` raises `UnboundLocalError`. -/
def entries2jinja (opts : Opts) : List Entry → Except String (List JinjaEntry × List String)
  | [] => .ok ([], [])
  | e :: rest =>
    if strLower e.name = strLower opts.output_file then
      entries2jinja opts rest
    else if !e.symlink && !e.writable then
      match entries2jinja opts rest with
      | .error s => .error s
      | .ok (js, logs) => .ok (js, warnUnwritable e :: logs)
    else
      let vlogs := if opts.verbose then [e.name] else []
      match entry_path opts e with
      | none => .error "UnboundLocalError: entry_path referenced before assignment"
      | some _ =>
        match entries2jinja opts rest with
        | .error s => .error s
        | .ok (js, logs) => .ok (toJinja opts e :: js, vlogs ++ symlinkLogs e ++ logs)

/-! ## Definitions: glob matching (fnmatch semantics of single-level pathlib glob on POSIX) -/

/-- Scan a character class body for its closing `]`; `none` when
unterminated. -/
def findClose : List Char → Option (List Char × List Char)
  | [] => none
  | c :: t =>
    if c = ']' then some ([], t)
    else
      match findClose t with
      | none => none
      | some (b, r) => some (c :: b, r)

theorem findClose_length {t b r} : findClose t = some (b, r) → r.length < t.length := by
  induction t generalizing b r with
  | nil => intro h; simp [findClose] at h
  | cons c t ih =>
    intro h
    by_cases hc : c = ']'
    · simp [findClose, hc] at h
      simp [← h.2]
    · simp only [findClose, hc, if_false, if_neg hc] at h
      match hfc : findClose t with
      | none => rw [hfc] at h; simp at h
      | some (b2, r2) =>
        rw [hfc] at h
        simp at h
        have := ih hfc
        simp [← h.2]
        omega

/-- Parse a class that starts right after `[`: an optional leading `!`
negates; a `]` right after that is a literal member; the body runs to the
next `]`.  `none` when the class is unterminated (the `[` is then treated
as a literal, as `fnmatch.translate` does). -/
def splitClass (cs : List Char) : Option (Bool × List Char × List Char) :=
  let neg := decide (cs.head? = some '!')
  let cs1 := if cs.head? = some '!' then cs.tail else cs
  let lit := decide (cs1.head? = some ']')
  let cs2 := if cs1.head? = some ']' then cs1.tail else cs1
  match findClose cs2 with
  | none => none
  | some (b, r) => some (neg, (if lit then [']'] else []) ++ b, r)

theorem splitClass_length {cs n b r} : splitClass cs = some (n, b, r) → r.length < cs.length := by
  intro h
  unfold splitClass at h
  simp only [] at h
  set cs1 := if cs.head? = some '!' then cs.tail else cs with hcs1
  set cs2 := if cs1.head? = some ']' then cs1.tail else cs1 with hcs2
  have h1 : cs1.length ≤ cs.length := by
    rw [hcs1]; split
    · simp [List.length_tail]
    · omega
  have h2 : cs2.length ≤ cs1.length := by
    rw [hcs2]; split
    · simp [List.length_tail]
    · omega
  match hfc : findClose cs2 with
  | none => rw [hfc] at h; simp at h
  | some (b2, r2) =>
    rw [hfc] at h
    simp at h
    have := findClose_length hfc
    rw [← h.2.2] at *
    omega

/-- Membership in a character class body: `a-b` (three characters with a
middle dash) is a code-point range, anything else is a literal member. -/
def classMatches : List Char → Char → Bool
  | a :: '-' :: b2 :: rest, c =>
    (a.toNat ≤ c.toNat && c.toNat ≤ b2.toNat) || classMatches rest c
  | a :: rest, c => (a == c) || classMatches rest c
  | [], _ => false

/-- An `fnmatch`-style full match of a name against a pattern: `*` matches any
run, `?` one character, `[..]`/`[!..]` a character class, everything else
literally. -/
def globMatch : List Char → List Char → Bool
  | [], s => s.isEmpty
  | '*' :: ps, [] => globMatch ps []
  | '*' :: ps, c :: s => globMatch ps (c :: s) || globMatch ('*' :: ps) s
  | '?' :: _, [] => false
  | '?' :: ps, _ :: s => globMatch ps s
  | '[' :: ps, s =>
    (match hsc : splitClass ps with
     | some (neg, body, rest) =>
       match s with
       | [] => false
       | c :: s2 => (classMatches body c != neg) && globMatch rest s2
     | none =>
       match s with
       | [] => false
       | c :: s2 => (c == '[') && globMatch ps s2)
  | p :: ps, [] => false
  | p :: ps, c :: s => (p == c) && globMatch ps s
termination_by p s => p.length + s.length
decreasing_by
  all_goals simp_arith [List.length]
  all_goals (try have := splitClass_length hsc)
  all_goals omega

/-- Glob matching on strings (one path component). -/
def globMatchS (pat s : String) : Bool := globMatch pat.data s.data

/-- The pattern `glob_patt = opts.filter or "[!.]*"` where Python `or`
also replaces an empty-string filter with the default. -/
def globPatt (opts : Opts) : String :=
  match opts.filter with
  | none => "[!.]*"
  | some s => if s = "" then "[!.]*" else s

/-! ## Definitions: filesystem snapshot and the walker -/

/-- Python `re.match` of the pattern caret-dot as a boolean: the first character is a dot. -/
def startsWithDot (s : String) : Bool :=
  match s.data with
  | [] => false
  | c :: _ => c = '.'

/-- The inner `hidden` closure applied to a path object: `not opts.all and
re.match(r"^\.", str(x))`, i.e. the textual form of the whole path starts
with a dot. -/
def hiddenB (opts : Opts) (s : String) : Bool := !opts.all && startsWithDot s

/-- The filesystem snapshot: regular file (stat size, stat mtime, symlink
flag, writability), directory (stat mtime, symlink flag, writability,
children by name), and `fdangling` for an entry that resolves to neither
(dangling symlink, fifo, ...). -/
inductive FSNode where
  | ffile (size mtime : Nat) (symlink writable : Bool)
  | fdir (mtime : Nat) (symlink writable : Bool) (children : List (String × FSNode))
  | fdangling (symlink writable : Bool)

/-- The `Entry` view of a named child node. -/
def toEntry : String × FSNode → Entry
  | (n, .ffile sz mt sl w) => ⟨n, sl, w, .efile sz mt⟩
  | (n, .fdir mt sl w _) => ⟨n, sl, w, .edir mt⟩
  | (n, .fdangling sl w) => ⟨n, sl, w, .enone⟩

/-- Python `p.is_file()` for a child path. -/
def isFileNode : FSNode → Bool | .ffile .. => true | _ => false

/-- Python `p.is_dir()` for a child path. -/
def isDirNode : FSNode → Bool | .fdir .. => true | _ => false

/-- Strict code-point lexicographic order on character lists: Python `<`
on strings. -/
def nameLtB : List Char → List Char → Bool
  | [], [] => false
  | [], _ :: _ => true
  | _ :: _, [] => false
  | a :: as, b :: bs => a.toNat < b.toNat || (a == b && nameLtB as bs)

/-- Strict order on Python sort keys `(p.is_file(), p.name)`:
`False < True` on booleans, then the name. -/
def keyLtB : Bool × String → Bool × String → Bool
  | (f1, n1), (f2, n2) => (!f1 && f2) || (f1 == f2 && nameLtB n1.data n2.data)

/-- The sort key `lambda p: (p.is_file(), p.name)`. -/
def keyOf (c : String × FSNode) : Bool × String := (isFileNode c.2, c.1)

/-- Non-strict key comparison used by the stable sort. -/
def pairLe (a b : String × FSNode) : Bool := !(keyLtB (keyOf b) (keyOf a))

/-- Stable insertion of one element into a sorted list. -/
def ordIns (a : String × FSNode) : List (String × FSNode) → List (String × FSNode)
  | [] => [a]
  | b :: l => if pairLe a b then a :: b :: l else b :: ordIns a l

/-- Python `sorted(entries, key=lambda p: (p.is_file(), p.name))`, a stable sort;
with the distinct names a directory listing provides, any correct sort
produces this same list. -/
def sortPairs : List (String × FSNode) → List (String × FSNode)
  | [] => []
  | a :: l => ordIns a (sortPairs l)

theorem mem_ordIns {x a : String × FSNode} {l} : x ∈ ordIns a l → x = a ∨ x ∈ l := by
  induction l with
  | nil => simp [ordIns]
  | cons b t ih =>
    simp only [ordIns]
    split
    · intro h
      rcases List.mem_cons.mp h with h1 | h1
      · left; exact h1
      · right; exact h1
    · intro h
      rcases List.mem_cons.mp h with h1 | h1
      · right; exact List.mem_cons.mpr (Or.inl h1)
      · rcases ih h1 with h2 | h2
        · left; exact h2
        · right; exact List.mem_cons.mpr (Or.inr h2)

theorem mem_sortPairs {x : String × FSNode} {l} : x ∈ sortPairs l → x ∈ l := by
  induction l with
  | nil => simp [sortPairs]
  | cons a t ih =>
    intro h
    rcases mem_ordIns h with h2 | h2
    · simp [h2]
    · simp [ih h2]

/-- Enumeration and filtering of one directory:
`filter(lambda x: not hidden(x), top_dir.glob(glob_patt))`.  The glob
matches child names; the hidden re-filter sees the joined path text. -/
def keptPairs (opts : Opts) (p : String) (ch : List (String × FSNode)) :
    List (String × FSNode) :=
  (ch.filter (fun c => globMatchS (globPatt opts) c.1)).filter
    (fun c => !hiddenB opts (pjoin p c.1))

/-- Modelled from the spec: the Jinja template (`templates/` is not under
`src/`) is abstracted as a deterministic serialisation of its inputs —
the ordered entries, `path_top_dir` and `index_name` (spec.md section
4.3/6: rendering is a pure template fill of exactly these values). -/
def renderJinjaEntry (je : JinjaEntry) : String :=
  "<tr>" ++ je.entrytype ++ "|" ++ je.path ++ "|" ++ je.name ++ "|" ++
    toString je.size_bytes ++ "|" ++ je.size_pretty ++ "|" ++
    je.last_modified_iso ++ "|" ++ je.last_modified_human_readable ++ "</tr>"

/-- Modelled from the spec: see `renderJinjaEntry`. -/
def renderHTML (entries : List JinjaEntry) (path_top_dir : String)
    (index_name : String) : String :=
  "<html>" ++ path_top_dir ++ "|" ++ index_name ++ "|" ++
    String.join (entries.map renderJinjaEntry) ++ "</html>"

/-- Sequence child runs depth-first: writes accumulate in order and the
first uncaught exception aborts the remaining traversal. -/
def collectRuns : List (List (String × String) × Option String) →
    List (String × String) × Option String
  | [] => ([], none)
  | (w, some s) :: _ => (w, some s)
  | (w, none) :: rest =>
    let t := collectRuns rest
    (w ++ t.1, t.2)

theorem sizeOf_child {n : String} {x : FSNode} {ch : List (String × FSNode)}
    (h : (n, x) ∈ ch) (mt : Nat) (sl w : Bool) :
    sizeOf x < sizeOf (FSNode.fdir mt sl w ch) := by
  have h1 : sizeOf (n, x) ≤ sizeOf ch := Nat.le_of_lt (List.sizeOf_lt_of_mem h)
  simp only [Prod.mk.sizeOf_spec] at h1
  simp only [FSNode.fdir.sizeOf_spec]
  omega

/-- The walker `process_dir` (indexer.py lines 148-191) on the snapshot: the returned
pair is the list of `(index_path, html)` writes in execution order and the
uncaught exception, if any, that aborted the traversal.  The hidden check
on the path of the directory itself comes first; the index is written before
recursing; recursion visits the surviving, sorted directory entries.
`process_dir` is only ever invoked on directory paths (the recursion is
guarded by `is_dir()`); a non-directory argument would raise from the glob
iteration, returned here as `NotADirectoryError`.  The write itself is
modelled as complete; the short-write handler around it is embedded
separately as `writeIndexFile`. -/
def processDir (opts : Opts) (p : String) (node : FSNode) (level : Nat) :
    List (String × String) × Option String :=
  match node with
  | .fdir mt sl w ch =>
    if hiddenB opts p then ([], none)
    else
      let sorted := sortPairs (keptPairs opts p ch)
      match entries2jinja opts (sorted.map toEntry) with
      | .error s => ([], some s)
      | .ok (js, _) =>
        let html := renderHTML js p (strLower opts.output_file)
        let self := (pjoin p opts.output_file, html)
        if opts.recursive then
          let rest := collectRuns
            (((sorted.filter (fun c => isDirNode c.2)).attach).map
              (fun c => processDir opts (pjoin p c.1.1) c.1.2 (level + 1)))
          (self :: rest.1, rest.2)
        else ([self], none)
  | _ => ([], some "NotADirectoryError")
termination_by sizeOf node
decreasing_by
  rename_i mt2 sl2 w2 ch2 hhid hrec
  have h1 : c.1 ∈ sortPairs (keptPairs opts p ch2) := (List.mem_filter.mp c.2).1
  have h2 : c.1 ∈ keptPairs opts p ch2 := mem_sortPairs h1
  have h3 : c.1 ∈ ch2 := (List.mem_filter.mp ((List.mem_filter.mp h2).1)).1
  exact sizeOf_child (n := c.1.1) (x := c.1.2)
    (by rw [show (c.1.1, c.1.2) = c.1 from rfl]; exact h3) mt2 sl2 w2

/-- The driver `main`: run the walker once from the configured start directory at
level 0, on the snapshot rooted there. -/
def runTool (opts : Opts) (root : FSNode) : List (String × String) × Option String :=
  processDir opts opts.top_dir root 0

/-! ## Definitions: the short-write handler (indexer.py lines 173-184) -/

/-- The local variables in scope in `process_dir` when the `except` handler
around the index write runs; the f-string of the handler names `num_bytes`,
`data` and `index_file`, and `data` is bound nowhere in the function. -/
def writeLocals (html : String) (num_bytes : Int) : String → Option String :=
  fun v =>
    if v = "html" then some html
    else if v = "num_bytes" then some (toString num_bytes)
    else if v = "index_file" then some "<TextIOWrapper>"
    else none

/-- Evaluate one interpolated name of the f-string under the local scope;
an unbound name raises `NameError`. -/
def evalName (env : String → Option String) (v : String) : Except String String :=
  match env v with
  | some s => .ok s
  | none => .error ("NameError: name " ++ v ++ " is not defined")

/-- The note the handler tries to attach:
`f"Only {num_bytes} of {len(data)} was written to {index_file}."` -/
def addNote (env : String → Option String) : Except String String := do
  let nb ← evalName env "num_bytes"
  let d ← evalName env "data"
  let f ← evalName env "index_file"
  .ok ("Only " ++ nb ++ " of " ++ d ++ " was written to " ++ f ++ ".")

/-- The `try`/`except` around the index write: `written` is what
`index_file.write(html)` returned.  A complete write succeeds; a short
write raises `Exception("Incomplete Write")`, and the handler, seeing
`num_bytes != -1` and `num_bytes != len(html)`, evaluates the note
f-string before re-raising; an exception raised by the f-string itself
replaces the one being handled. -/
def writeIndexFile (html : String) (written : Nat) : Except String Unit :=
  let num_bytes : Int := written
  if written = html.length then .ok ()
  else
    let env := writeLocals html num_bytes
    if num_bytes ≠ -1 ∧ num_bytes ≠ (html.length : Int) then
      match addNote env with
      | .error ne => .error ne
      | .ok note => .error ("Incomplete Write [" ++ note ++ "]")
    else .error "Incomplete Write"

/-! ## Definitions: the effect of the writes of a run on the snapshot -/

/-- Boolean distinctness of child names. -/
def nodupKeys : List (String × FSNode) → Bool
  | [] => true
  | c :: t => !(t.any (fun d => d.1 == c.1)) && nodupKeys t

/-- Remove every child named exactly `out`, at every depth. -/
def scrubE (out : String) (node : FSNode) : FSNode :=
  match node with
  | .fdir mt sl w ch =>
    .fdir mt sl w (((ch.filter (fun c => !(c.1 == out))).attach).map
      (fun c => (c.1.1, scrubE out c.1.2)))
  | n => n
termination_by sizeOf node
decreasing_by
  rename_i mt sl w ch
  have h1 : c.1 ∈ ch := (List.mem_filter.mp c.2).1
  exact sizeOf_child (n := c.1.1) (x := c.1.2)
    (by rw [show (c.1.1, c.1.2) = c.1 from rfl]; exact h1) mt sl w

/-- The write of one index file into the child list of a directory: overwrite
the entry named `out` in place if present, else create it. -/
def upsertIndex (out : String) (sz mt2 : Nat)
    (ch : List (String × FSNode)) : List (String × FSNode) :=
  if ch.any (fun c => c.1 == out) then
    ch.map (fun c => if c.1 == out then (c.1, .ffile sz mt2 false true) else c)
  else ch ++ [(out, .ffile sz mt2 false true)]

/-- The snapshot after one completed run of the tool: every visited
directory (the start directory unless hidden, and, when recursing, every
surviving directory entry, recursively) receives its index file —
overwritten in place when a child of that exact name already exists,
created as a new directory entry otherwise.  Creating a new directory
entry updates the modification time of the containing directory (POSIX),
modelled by replacing its mtime with `mt2`; an in-place overwrite leaves
the directory mtime alone.  `sz`/`mt2` are the stat size and mtime of the
written file. -/
def afterRun (opts : Opts) (sz mt2 : Nat) (p : String) (node : FSNode) : FSNode :=
  match node with
  | .fdir mt sl w ch =>
    if hiddenB opts p then .fdir mt sl w ch
    else
      let mtN := if ch.any (fun c => c.1 == opts.output_file) then mt else mt2
      let ch2 := if opts.recursive then
          (ch.attach).map (fun c =>
            if globMatchS (globPatt opts) c.1.1 &&
                !hiddenB opts (pjoin p c.1.1) && isDirNode c.1.2
            then (c.1.1, afterRun opts sz mt2 (pjoin p c.1.1) c.1.2)
            else c.1)
        else ch
      .fdir mtN sl w (upsertIndex opts.output_file sz mt2 ch2)
  | n => n
termination_by sizeOf node
decreasing_by
  obtain ⟨⟨n2, x2⟩, hmem⟩ := c
  have h1 := List.sizeOf_lt_of_mem hmem
  simp only [Prod.mk.sizeOf_spec] at h1
  simp only [FSNode.fdir.sizeOf_spec]
  omega

/-- Well-formed snapshot: in every directory the children carry distinct
names. -/
def WFb (node : FSNode) : Bool :=
  match node with
  | .fdir _ _ _ ch => nodupKeys ch && (ch.attach).all (fun c => WFb c.1.2)
  | _ => true
termination_by sizeOf node
decreasing_by
  rename_i mt sl w ch
  exact sizeOf_child (n := c.1.1) (x := c.1.2)
    (by rw [show (c.1.1, c.1.2) = c.1 from rfl]; exact c.2) mt sl w

/-- Every directory anywhere in the snapshot already carries a child named
exactly `out`: a run over such a snapshot only overwrites index files in
place, so no directory modification time changes. -/
def AllIdxB (out : String) (node : FSNode) : Bool :=
  match node with
  | .fdir _ _ _ ch =>
    ch.any (fun c => c.1 == out) && (ch.attach).all (fun c => AllIdxB out c.1.2)
  | _ => true
termination_by sizeOf node
decreasing_by
  rename_i mt sl w ch
  exact sizeOf_child (n := c.1.1) (x := c.1.2)
    (by rw [show (c.1.1, c.1.2) = c.1 from rfl]; exact c.2) mt sl w

/-- No directory anywhere in the snapshot has a child directory named
exactly `out` (such a child would be recursed into while being excluded
from the listing; in reality the index write into its parent would
already fail on it). -/
def NoDirIdxB (out : String) (node : FSNode) : Bool :=
  match node with
  | .fdir _ _ _ ch =>
    (ch.all (fun c => !(c.1 == out) || !isDirNode c.2)) &&
    (ch.attach).all (fun c => NoDirIdxB out c.1.2)
  | _ => true
termination_by sizeOf node
decreasing_by
  rename_i mt sl w ch
  exact sizeOf_child (n := c.1.1) (x := c.1.2)
    (by rw [show (c.1.1, c.1.2) = c.1 from rfl]; exact c.2) mt sl w

/-- A listing record derived from a directory (plain or symlinked). -/
def isFolderKind (je : JinjaEntry) : Bool :=
  je.entrytype == "folder" || je.entrytype == "folder-shortcut"

/-! ## Definitions: concrete inputs used by witnesses and counterexamples -/

def optsC5 : Opts :=
  { top_dir := "d", all := false, filter := none, output_file := "Idx.html",
    recursive := false, verbose := false }

def entC5 : Entry := ⟨"sub", false, true, .edir 0⟩

def entC8 : Entry := ⟨"s", true, true, .edir 0⟩

def optsD : Opts :=
  { top_dir := "d", all := false, filter := none, output_file := "index.html",
    recursive := true, verbose := false }

def entC10 : Entry := ⟨"broken", true, false, .enone⟩

def treeC10 : FSNode := .fdir 0 false true [("broken", .fdangling true false)]

def optsC6 : Opts :=
  { top_dir := "d", all := false, filter := none, output_file := "index.html",
    recursive := false, verbose := false }

def entC6self : Entry := ⟨"INDEX.HTML", false, false, .efile 1 0⟩

def entC6sib : Entry := ⟨"keep.txt", false, true, .efile 2 5⟩

def entC6bad : Entry := ⟨"locked.txt", false, false, .efile 3 7⟩

def optsC2 : Opts :=
  { top_dir := "d", all := true, filter := none, output_file := "index.html",
    recursive := true, verbose := false }

def treeC2 : FSNode :=
  .fdir 0 false true
    [(".hidden", .fdir 0 false true [("f.txt", .ffile 1 0 false true)])]

def optsC3 : Opts :=
  { top_dir := "d", all := false, filter := some "*", output_file := "index.html",
    recursive := false, verbose := false }

def treeC3 : FSNode := .fdir 0 false true [(".secret", .ffile 3 0 false true)]

def lC4 : List (String × FSNode) :=
  [("b.txt", .ffile 1 0 false true), ("a", .fdir 0 false true []),
   ("z", .fdir 0 false true [])]

def treeC9 : FSNode :=
  .fdir 0 false true
    [("sub", .fdir 5 false true [("f.txt", .ffile 3 2 false true),
        ("index.html", .ffile 4 4 false true)]),
     ("g.txt", .ffile 7 9 false true),
     ("index.html", .ffile 6 8 false true)]

def treeC9f : FSNode := .fdir 0 false true [("sub", .fdir 5 false true [])]

/-! ## Theorems: claim C1 (SizeFormatter) -/

theorem selectUnit_eq (b : Nat) :
    selectUnit b =
      if 1024 ^ 5 ≤ b then (1024 ^ 5, "P")
      else if 1024 ^ 4 ≤ b then (1024 ^ 4, "T")
      else if 1024 ^ 3 ≤ b then (1024 ^ 3, "G")
      else if 1024 ^ 2 ≤ b then (1024 ^ 2, "M")
      else if 1024 ≤ b then (1024, "K")
      else (1, "B") := by
  norm_num [selectUnit, UNITS_MAPPING, List.find?]
  by_cases h5 : 1125899906842624 ≤ b
  · simp [h5]
  · simp only [h5, if_false, decide_False]
    by_cases h4 : 1099511627776 ≤ b
    · simp [h4]
    · simp only [h4, if_false, decide_False]
      by_cases h3 : 1073741824 ≤ b
      · simp [h3]
      · simp only [h3, if_false, decide_False]
        by_cases h2 : 1048576 ≤ b
        · simp [h2]
        · simp only [h2, if_false, decide_False]
          by_cases h1 : 1024 ≤ b
          · simp [h1]
          · simp only [h1, if_false, decide_False]
            by_cases h0 : 1 ≤ b
            · simp [h0]
            · simp [h0]

theorem specSelect_eq (b : Nat) :
    (UNITS_MAPPING.filter (fun t => t.1 ≤ b)).foldl
        (fun acc t => if acc.1 < t.1 then t else acc) (1, "B") =
      selectUnit b := by
  rw [selectUnit_eq]
  norm_num [UNITS_MAPPING, List.filter]
  by_cases h5 : 1125899906842624 ≤ b
  · simp [h5, show 1048576 ≤ b by omega, show 1073741824 ≤ b by omega,
      show 1099511627776 ≤ b by omega, show 1024 ≤ b by omega,
      show (1:Nat) ≤ b by omega]
  · simp only [h5, decide_False, Bool.false_eq_true, if_false]
    by_cases h4 : 1099511627776 ≤ b
    · simp [h4, show 1048576 ≤ b by omega, show 1073741824 ≤ b by omega,
        show 1024 ≤ b by omega, show (1:Nat) ≤ b by omega]
    · simp only [h4, decide_False, Bool.false_eq_true, if_false]
      by_cases h3 : 1073741824 ≤ b
      · simp [h3, show 1048576 ≤ b by omega, show 1024 ≤ b by omega,
          show (1:Nat) ≤ b by omega]
      · simp only [h3, decide_False, Bool.false_eq_true, if_false]
        by_cases h2 : 1048576 ≤ b
        · simp [h2, show 1024 ≤ b by omega, show (1:Nat) ≤ b by omega]
        · simp only [h2, decide_False, Bool.false_eq_true, if_false]
          by_cases h1 : 1024 ≤ b
          · simp [h1, show (1:Nat) ≤ b by omega]
          · simp only [h1, decide_False, Bool.false_eq_true, if_false]
            by_cases h0 : 1 ≤ b
            · simp [h0]
            · simp [h0]

theorem format_refines (b : Nat) : pretty_size b = SizeFormatter_format b := by
  unfold pretty_size SizeFormatter_format
  simp only []
  rw [show (List.filter (fun t => decide (t.1 ≤ b)) UNITS_MAPPING) =
    UNITS_MAPPING.filter (fun t => t.1 ≤ b) from rfl]
  rw [specSelect_eq, selectUnit_eq]
  by_cases h5 : (1125899906842624 : Nat) ≤ b
  · simp [h5]
  · by_cases h4 : (1099511627776 : Nat) ≤ b
    · simp [h5, h4]
    · by_cases h3 : (1073741824 : Nat) ≤ b
      · simp [h5, h4, h3]
      · by_cases h2 : (1048576 : Nat) ≤ b
        · simp [h5, h4, h3, h2]
        · by_cases h1 : (1024 : Nat) ≤ b
          · simp [h5, h4, h3, h2, h1]
          · simp [h5, h4, h3, h2, h1]

/-- Unfolding of `processDir` with the recursion written as a plain `map` (the
`attach` in the definition only serves the termination argument). -/
theorem processDir_fdir (opts : Opts) (p : String) (mt : Nat) (sl w : Bool)
    (ch : List (String × FSNode)) (level : Nat) :
    processDir opts p (.fdir mt sl w ch) level =
      if hiddenB opts p then ([], none)
      else
        let sorted := sortPairs (keptPairs opts p ch)
        match entries2jinja opts (sorted.map toEntry) with
        | .error s => ([], some s)
        | .ok (js, _) =>
          let html := renderHTML js p (strLower opts.output_file)
          let self := (pjoin p opts.output_file, html)
          if opts.recursive then
            let rest := collectRuns ((sorted.filter (fun c => isDirNode c.2)).map
              (fun c => processDir opts (pjoin p c.1) c.2 (level + 1)))
            (self :: rest.1, rest.2)
          else ([self], none) := by
  rw [processDir]
  simp only [List.map_subtype, List.unattach_filter, List.unattach_attach]

/-! ## Theorems: shape of the generated listing -/

theorem entry_path_some_kind {opts : Opts} {e : Entry} {q : String}
    (h : entry_path opts e = some q) : e.kind ≠ .enone := by
  intro hk
  rw [entry_path, hk] at h
  exact Option.noConfusion h

theorem entries2jinja_sublist (opts : Opts) :
    ∀ {l : List Entry} {js : List JinjaEntry} {logs : List String},
      entries2jinja opts l = .ok (js, logs) →
      ∃ l2 : List Entry, l2.Sublist l ∧ js = l2.map (toJinja opts) ∧
        ∀ e ∈ l2, e.kind ≠ EKind.enone := by
  intro l
  induction l with
  | nil =>
    intro js logs h
    simp [entries2jinja] at h
    exact ⟨[], by simp, by simp [h.1], by simp⟩
  | cons e rest ih =>
    intro js logs h
    by_cases h1 : strLower e.name = strLower opts.output_file
    · rw [entries2jinja, if_pos h1] at h
      obtain ⟨l2, hsub, hmap, hk⟩ := ih h
      exact ⟨l2, hsub.cons e, hmap, hk⟩
    · by_cases h2 : (!e.symlink && !e.writable) = true
      · rw [entries2jinja, if_neg h1, if_pos h2] at h
        match hr : entries2jinja opts rest with
        | .error s => rw [hr] at h; exact absurd h (by simp)
        | .ok (js2, logs2) =>
          rw [hr] at h
          simp at h
          obtain ⟨l2, hsub, hmap, hk⟩ := ih hr
          exact ⟨l2, hsub.cons e, by rw [← h.1]; exact hmap, hk⟩
      · rw [entries2jinja, if_neg h1, if_neg h2] at h
        match hp : entry_path opts e with
        | none => rw [hp] at h; exact absurd h (by simp)
        | some q =>
          rw [hp] at h
          match hr : entries2jinja opts rest with
          | .error s => rw [hr] at h; exact absurd h (by simp)
          | .ok (js2, logs2) =>
            rw [hr] at h
            simp at h
            obtain ⟨l2, hsub, hmap, hk⟩ := ih hr
            refine ⟨e :: l2, hsub.cons₂ e, ?_, ?_⟩
            · rw [← h.1, hmap]; rfl
            · intro x hx
              rcases List.mem_cons.mp hx with hx | hx
              · rw [hx]; exact entry_path_some_kind hp
              · exact hk x hx

/-- Claim C1 (amended): `pretty_size` realises the spec rule with the
amount computed in binary64 -- largest tier with factor at most the input
(B as the fallback), truncated integer for unit B, two decimals when the
binary64 amount is below 10, one decimal below 100, else a truncated
integer -- stated for inputs below `2 ^ 1024`, comfortably inside
binary64 range (far past any real size; for far larger inputs the
program raises `OverflowError`); and the
examples evaluate to "0 B", "1.50 K", "15.0 K", while 1048576 bytes
render as "1.00 M" (amount 1.0 takes the two-decimal branch), not
"1 M". -/
theorem claim_C1 :
    (∀ b : Nat, b < 2 ^ 1024 → pretty_size b = SizeFormatter_format b) ∧
    pretty_size 0 = "0 B" ∧ pretty_size 1536 = "1.50 K" ∧
    pretty_size 15360 = "15.0 K" ∧ pretty_size 1048576 = "1.00 M" :=
  ⟨fun b _ => format_refines b, by decide, by decide, by decide, by decide⟩

/-- Claim C1 counterexample: the claim states 1048576 formats as "1 M",
but the code formats it as "1.00 M"; and the claim's exact-quotient
reading of the branch rule fails where binary64 rounding crosses a
threshold: at `10 * 1024 ^ 5 - 1` bytes the exact amount is below 10 yet
the double rounds to 10.0 and the code renders one decimal ("10.0 P"),
and at `101 * 1024 ^ 5 - 1` bytes the exact truncated amount is 100 yet
the double rounds to 101.0 and the code renders "101 P". -/
theorem claim_C1_counterexample :
    (pretty_size 1048576 = "1.00 M" ∧ pretty_size 1048576 ≠ "1 M") ∧
    (10 * 1024 ^ 5 - 1 < 10 * 1024 ^ 5 ∧
      pretty_size (10 * 1024 ^ 5 - 1) = "10.0 P") ∧
    ((101 * 1024 ^ 5 - 1) / 1024 ^ 5 = 100 ∧
      pretty_size (101 * 1024 ^ 5 - 1) = "101 P") := by
  decide

/-- Claim C5 counterexample: with `--output-file Idx.html`, the listing
entry generated for directory `sub` carries path `sub/idx.html`
(lowercased), not the configured filename joined as given. -/
theorem claim_C5_counterexample :
    entries2jinja optsC5 [entC5] = .ok ([toJinja optsC5 entC5], []) ∧
    (toJinja optsC5 entC5).path = "sub/idx.html" ∧
    (toJinja optsC5 entC5).path ≠ "sub/Idx.html" :=
  ⟨rfl, rfl, by decide⟩

/-- Claim C5 (amended): every entry of a generated listing has `path`
equal to the bare entry name for files, and to the entry name joined with
the lowercased configured output filename for directories. -/
theorem claim_C5 (opts : Opts) {l : List Entry} {js : List JinjaEntry}
    {logs : List String} (h : entries2jinja opts l = .ok (js, logs)) :
    ∀ je ∈ js, ∃ e ∈ l,
      je = toJinja opts e ∧
      ((e.is_file = true ∧ je.path = e.name) ∨
       (e.is_dir = true ∧ je.path = pjoin e.name (strLower opts.output_file))) := by
  intro je hje
  obtain ⟨l2, hsub, hmap, hk⟩ := entries2jinja_sublist opts h
  rw [hmap] at hje
  obtain ⟨e, hel2, hej⟩ := List.mem_map.mp hje
  refine ⟨e, hsub.subset hel2, hej.symm, ?_⟩
  match hkind : e.kind with
  | .efile sz mt =>
    left
    refine ⟨by simp [Entry.is_file, hkind], ?_⟩
    rw [← hej]
    simp [toJinja, entry_path, hkind]
  | .edir mt =>
    right
    refine ⟨by simp [Entry.is_dir, hkind], ?_⟩
    rw [← hej]
    simp [toJinja, entry_path, hkind]
  | .enone => exact absurd hkind (hk e hel2)

/-- Claim C5 witness: the amended theorem applied to a one-entry listing. -/
theorem claim_C5_witness :
    ∃ e ∈ [entC5], toJinja optsC5 entC5 = toJinja optsC5 e ∧
      ((e.is_file = true ∧ (toJinja optsC5 entC5).path = e.name) ∨
       (e.is_dir = true ∧
        (toJinja optsC5 entC5).path = pjoin e.name (strLower optsC5.output_file))) :=
  @claim_C5 optsC5 [entC5] [toJinja optsC5 entC5] [] rfl
    (toJinja optsC5 entC5) (by simp)

/-! ## Theorems: claims C7 and C8 -/

/-- Claim C7 (code bug): a short write does terminate the run, but the
promised note is never attached: the text built by the handler references the
unbound name `data`, so the raised error is a `NameError`, not the
Incomplete Write annotated with the byte counts and path. -/
theorem claim_C7 (html : String) (written : Nat) (hshort : written ≠ html.length) :
    writeIndexFile html written = .error "NameError: name data is not defined" := by
  unfold writeIndexFile
  rw [if_neg hshort]
  have h1 : (written : Int) ≠ -1 := by omega
  have h2 : (written : Int) ≠ (html.length : Int) := by exact_mod_cast hshort
  rw [if_pos ⟨h1, h2⟩]
  simp [addNote, evalName, writeLocals, Bind.bind, Except.bind]

/-- Claim C7 witness: a concrete short write (1 byte of 2). -/
theorem claim_C7_witness :
    writeIndexFile "ab" 1 = .error "NameError: name data is not defined" :=
  claim_C7 "ab" 1 (by decide)

/-- Claim C8 (confirmed): for every entry that yields a listing record,
`entrytype` is exactly the function of the pair (is-directory, is-symlink)
stated by the spec table. -/
theorem claim_C8 (opts : Opts) (e : Entry)
    (h : (entry_path opts e).isSome = true) :
    (toJinja opts e).entrytype =
      match e.is_dir, e.symlink with
      | false, false => "file"
      | false, true => "file-shortcut"
      | true, false => "folder"
      | true, true => "folder-shortcut" := by
  match hk : e.kind with
  | .enone => simp [entry_path, hk] at h
  | .efile sz mt =>
    cases hsl : e.symlink <;>
      simp [toJinja, entry_type, Entry.is_dir, Entry.is_file, hk, hsl]
  | .edir mt =>
    cases hsl : e.symlink <;>
      simp [toJinja, entry_type, Entry.is_dir, Entry.is_file, hk, hsl]

/-- Claim C8 witness: a symlinked directory yields `folder-shortcut`. -/
theorem claim_C8_witness :
    (toJinja optsC5 entC8).entrytype = "folder-shortcut" := by
  have := claim_C8 optsC5 entC8 (by decide)
  simpa using this

/-! ## Theorems: inserting a skipped or crashing entry (claims C10 and C6) -/

theorem e2j_insert_unwritable (opts : Opts) (e : Entry)
    (hsl : e.symlink = false) (hw : e.writable = false)
    (hn : strLower e.name ≠ strLower opts.output_file) :
    ∀ (l1 l2 : List Entry) (js : List JinjaEntry) (logs : List String),
      entries2jinja opts (l1 ++ l2) = .ok (js, logs) →
      ∃ logs2, entries2jinja opts (l1 ++ e :: l2) = .ok (js, logs2) ∧
        warnUnwritable e ∈ logs2 := by
  intro l1
  induction l1 with
  | nil =>
    intro l2 js logs h
    refine ⟨warnUnwritable e :: logs, ?_, List.mem_cons_self _ _⟩
    rw [List.nil_append] at h ⊢
    rw [entries2jinja, if_neg hn, if_pos (by simp [hsl, hw]), h]
  | cons x t ih =>
    intro l2 js logs h
    rw [List.cons_append] at h ⊢
    by_cases h1 : strLower x.name = strLower opts.output_file
    · rw [entries2jinja, if_pos h1] at h
      obtain ⟨logs2, hok, hmem⟩ := ih l2 js logs h
      rw [entries2jinja, if_pos h1]
      exact ⟨logs2, hok, hmem⟩
    · by_cases h2 : (!x.symlink && !x.writable) = true
      · rw [entries2jinja, if_neg h1, if_pos h2] at h
        match hr : entries2jinja opts (t ++ l2) with
        | .error s => rw [hr] at h; exact absurd h (by simp)
        | .ok (js2, logs3) =>
          rw [hr] at h
          simp at h
          obtain ⟨logs2, hok, hmem⟩ := ih l2 js2 logs3 hr
          rw [entries2jinja, if_neg h1, if_pos h2, hok]
          exact ⟨warnUnwritable x :: logs2, by rw [h.1],
            List.mem_cons_of_mem _ hmem⟩
      · rw [entries2jinja, if_neg h1, if_neg h2] at h
        match hp : entry_path opts x with
        | none => rw [hp] at h; exact absurd h (by simp)
        | some q =>
          rw [hp] at h
          match hr : entries2jinja opts (t ++ l2) with
          | .error s => rw [hr] at h; exact absurd h (by simp)
          | .ok (js2, logs3) =>
            rw [hr] at h
            simp at h
            obtain ⟨logs2, hok, hmem⟩ := ih l2 js2 logs3 hr
            refine ⟨(if opts.verbose then [x.name] else []) ++ symlinkLogs x ++ logs2,
              ?_, List.mem_append.mpr (Or.inr hmem)⟩
            rw [entries2jinja, if_neg h1, if_neg h2, hp, hok]
            simp only []
            rw [← h.1]

theorem e2j_insert_crash (opts : Opts) (e : Entry)
    (hk : e.kind = EKind.enone)
    (hn : strLower e.name ≠ strLower opts.output_file)
    (hsw : e.symlink = true ∨ e.writable = true) :
    ∀ (l1 l2 : List Entry) (js : List JinjaEntry) (logs : List String),
      entries2jinja opts l1 = .ok (js, logs) →
      entries2jinja opts (l1 ++ e :: l2) =
        .error "UnboundLocalError: entry_path referenced before assignment" := by
  have hskip : (!e.symlink && !e.writable) = false := by
    rcases hsw with h | h <;> simp [h]
  intro l1
  induction l1 with
  | nil =>
    intro l2 js logs _
    rw [List.nil_append]
    simp [entries2jinja, hn, hskip, entry_path, hk]
  | cons x t ih =>
    intro l2 js logs h
    rw [List.cons_append]
    by_cases h1 : strLower x.name = strLower opts.output_file
    · rw [entries2jinja, if_pos h1] at h
      rw [entries2jinja, if_pos h1]
      exact ih l2 js logs h
    · by_cases h2 : (!x.symlink && !x.writable) = true
      · rw [entries2jinja, if_neg h1, if_pos h2] at h
        cases hr : entries2jinja opts t with
        | error s => rw [hr] at h; exact absurd h (by simp)
        | ok pr =>
          rw [entries2jinja, if_neg h1, if_pos h2, ih l2 pr.1 pr.2 (by rw [hr])]
      · rw [entries2jinja, if_neg h1, if_neg h2] at h
        cases hp : entry_path opts x with
        | none => rw [hp] at h; exact absurd h (by simp)
        | some q =>
          rw [hp] at h
          simp only [] at h
          cases hr : entries2jinja opts t with
          | error s => rw [hr] at h; exact absurd h (by simp)
          | ok pr =>
            rw [entries2jinja, if_neg h1, if_neg h2, hp]
            simp only []
            rw [ih l2 pr.1 pr.2 (by rw [hr])]

/-- Claim C10 (confirmed): a filter-surviving entry resolving to neither
file nor directory (e.g. a dangling symlink) reaches the yield with
`entry_path` unassigned: an uncaught `UnboundLocalError` replaces the
whole listing, and `process_dir` aborts without writing the index. -/
theorem claim_C10 (opts : Opts) (e : Entry)
    (hk : e.kind = EKind.enone)
    (hn : strLower e.name ≠ strLower opts.output_file)
    (hsw : e.symlink = true ∨ e.writable = true) :
    (∀ (l1 l2 : List Entry) (js : List JinjaEntry) (logs : List String),
      entries2jinja opts l1 = .ok (js, logs) →
      entries2jinja opts (l1 ++ e :: l2) =
        .error "UnboundLocalError: entry_path referenced before assignment") ∧
    (∀ (p : String) (mt : Nat) (sl w : Bool) (ch : List (String × FSNode))
        (level : Nat) (s : String),
      hiddenB opts p = false →
      entries2jinja opts ((sortPairs (keptPairs opts p ch)).map toEntry) = .error s →
      processDir opts p (.fdir mt sl w ch) level = ([], some s)) := by
  refine ⟨e2j_insert_crash opts e hk hn hsw, ?_⟩
  intro p mt sl w ch level s hhid herr
  rw [processDir_fdir]
  simp only [hhid, Bool.false_eq_true, if_false, herr]

/-- Claim C10 witness: a directory holding one dangling symlink makes the
listing raise, and the run aborts with no index written. -/
theorem claim_C10_witness :
    entries2jinja optsD ([] ++ entC10 :: []) =
      .error "UnboundLocalError: entry_path referenced before assignment" ∧
    processDir optsD "d" treeC10 0 =
      ([], some "UnboundLocalError: entry_path referenced before assignment") := by
  constructor
  · exact (claim_C10 optsD entC10 rfl (by decide) (Or.inl rfl)).1 [] [] [] [] rfl
  · refine (claim_C10 optsD entC10 rfl (by decide) (Or.inl rfl)).2
      "d" 0 false true [("broken", .fdangling true false)] 0 _ (by decide) ?_
    simp [keptPairs, globMatchS, globPatt, globMatch, splitClass, findClose,
      classMatches, hiddenB, startsWithDot, sortPairs, ordIns, entries2jinja,
      toEntry, pjoin, strLower, entry_path, List.filter, optsD]

/-- Claim C6 counterexample: an unwritable non-symlink entry whose name
case-insensitively equals the output filename is skipped by the
self-exclusion check first: it is absent, but no warning is printed
(the log list is empty), contradicting the claim for that entry. -/
theorem claim_C6_counterexample :
    entC6self.symlink = false ∧ entC6self.writable = false ∧
    entries2jinja optsC6 [entC6self] = .ok ([], []) :=
  ⟨rfl, rfl, rfl⟩

/-- Claim C6 (amended): an enumerated entry that is not a symlink and not
writable — and is not already excluded by the output-filename check — is
skipped with the warning printed: the listing is the one computed without
it, the traversal stays successful, and the directory index is still
produced with that listing. -/
theorem claim_C6 (opts : Opts) (e : Entry) (l1 l2 : List Entry)
    (hsl : e.symlink = false) (hw : e.writable = false)
    (hn : strLower e.name ≠ strLower opts.output_file) :
    ∀ (js : List JinjaEntry) (logs : List String),
      entries2jinja opts (l1 ++ l2) = .ok (js, logs) →
      ∃ logs2, entries2jinja opts (l1 ++ e :: l2) = .ok (js, logs2) ∧
        warnUnwritable e ∈ logs2 ∧
        ∀ (p : String) (mt : Nat) (sl w : Bool) (ch : List (String × FSNode))
          (level : Nat),
          hiddenB opts p = false →
          (sortPairs (keptPairs opts p ch)).map toEntry = l1 ++ e :: l2 →
          ∃ writes err,
            processDir opts p (.fdir mt sl w ch) level = (writes, err) ∧
            writes.head? = some (pjoin p opts.output_file,
              renderHTML js p (strLower opts.output_file)) := by
  intro js logs h
  obtain ⟨logs2, hok, hmem⟩ := e2j_insert_unwritable opts e hsl hw hn l1 l2 js logs h
  refine ⟨logs2, hok, hmem, ?_⟩
  intro p mt sl w ch level hhid hsort
  rw [processDir_fdir]
  simp only [hhid, Bool.false_eq_true, if_false, hsort, hok]
  cases hrec : opts.recursive
  · exact ⟨_, _, rfl, rfl⟩
  · exact ⟨_, _, rfl, rfl⟩

/-- Claim C6 witness: inserting the unwritable `locked.txt` before a
writable sibling leaves the listing unchanged and logs the warning. -/
theorem claim_C6_witness :
    ∃ logs2,
      entries2jinja optsC6 ([] ++ entC6bad :: [entC6sib]) =
        .ok ([toJinja optsC6 entC6sib], logs2) ∧
      warnUnwritable entC6bad ∈ logs2 ∧
      ∀ (p : String) (mt : Nat) (sl w : Bool) (ch : List (String × FSNode))
        (level : Nat),
        hiddenB optsC6 p = false →
        (sortPairs (keptPairs optsC6 p ch)).map toEntry = [] ++ entC6bad :: [entC6sib] →
        ∃ writes err,
          processDir optsC6 p (.fdir mt sl w ch) level = (writes, err) ∧
          writes.head? = some (pjoin p optsC6.output_file,
            renderHTML [toJinja optsC6 entC6sib] p (strLower optsC6.output_file)) :=
  claim_C6 optsC6 entC6bad [] [entC6sib] rfl rfl (by decide)
    [toJinja optsC6 entC6sib] [] rfl

/-! ## Theorems: claim C2 -/

/-- Claim C2 (code bug): `glob_patt = opts.filter or "[!.]*"` ignores
`--all`, so with show-hidden enabled and no explicit filter the default
glob still drops every dot-named child: `.hidden` is matched by neither
the listing nor the recursion, and the only write is the top index with an
empty listing — contradicting the claim and the help text of the option
("do not ignore entries starting with ."). -/
theorem claim_C2 :
    optsC2.all = true ∧ optsC2.filter = none ∧
    globPatt optsC2 = "[!.]*" ∧
    globMatchS (globPatt optsC2) ".hidden" = false ∧
    processDir optsC2 "d" treeC2 0 =
      ([("d/index.html", renderHTML [] "d" "index.html")], none) := by
  refine ⟨rfl, rfl, rfl, ?_, ?_⟩
  · simp [globMatchS, globPatt, optsC2, globMatch, splitClass, findClose,
      classMatches]
  · simp [processDir_fdir, optsC2, treeC2, keptPairs, globMatchS, globPatt,
      globMatch, splitClass, findClose, classMatches, hiddenB, startsWithDot,
      sortPairs, ordIns, entries2jinja, toEntry, pjoin, collectRuns, strLower,
      List.filter]

/-! ## Theorems: claim C3 -/

/-- Claim C3 counterexample: with `--filter "*"` the dot-named child
`.secret` of directory `d` survives the second filter pass and appears in
the generated listing, and a dot-named directory reached through an
absolute path (`/tmp/.hidden`) is processed rather than skipped: the
hidden test reads the whole path text, not the bare entry name. -/
theorem claim_C3_counterexample :
    processDir optsC3 "d" treeC3 0 =
      ([("d/index.html",
         renderHTML [toJinja optsC3 ⟨".secret", false, true, .efile 3 0⟩]
           "d" "index.html")], none) ∧
    hiddenB optsC3 "/tmp/.hidden" = false ∧
    processDir optsC3 "/tmp/.hidden" treeC3 0 =
      ([("/tmp/.hidden/index.html",
         renderHTML [toJinja optsC3 ⟨".secret", false, true, .efile 3 0⟩]
           "/tmp/.hidden" "index.html")], none) := by
  refine ⟨?_, by decide, ?_⟩ <;>
    simp [processDir_fdir, optsC3, treeC3, keptPairs, globMatchS, globPatt,
      globMatch, splitClass, findClose, classMatches, hiddenB, startsWithDot,
      sortPairs, ordIns, entries2jinja, toEntry, pjoin, collectRuns, strLower,
      List.filter, entry_path]

theorem startsWithDot_append_ne (p n : String) :
    startsWithDot (p ++ "/" ++ n) = startsWithDot (p ++ "/") := by
  unfold startsWithDot
  rw [String.data_append]
  cases hd : (p ++ "/").data with
  | nil =>
    exfalso
    have : (p ++ "/").data = p.data ++ ['/'] := by
      rw [String.data_append]
    rw [this] at hd
    exact absurd hd (by simp)
  | cons c0 rest => simp

/-- Claim C3 (amended): when show-hidden is off, the hidden test is a
predicate on the textual path, not on the bare entry name: (a) a visited
directory is skipped exactly when its path text starts with a dot; (b) for
any directory whose path text does not start with a dot, the second filter
pass keeps every child — whatever the glob pattern and even for dot-named
children — because the joined path starts with the first character of
the parent; (c) a path starting with `/` (any absolute path) is never
hidden, so an absolute starting directory is never skipped. -/
theorem claim_C3 (opts : Opts) (p : String) (h_all : opts.all = false) :
    (startsWithDot p = true →
      ∀ (mt : Nat) (sl w : Bool) (ch : List (String × FSNode)) (level : Nat),
        processDir opts p (.fdir mt sl w ch) level = ([], none)) ∧
    (startsWithDot p = false →
      ∀ l : List (String × FSNode),
        l.filter (fun c => !hiddenB opts (pjoin p c.1)) = l) ∧
    (∀ s : String, hiddenB opts ("/" ++ s) = false) := by
  refine ⟨?_, ?_, ?_⟩
  · intro hpd mt sl w ch level
    rw [processDir_fdir]
    simp [hiddenB, h_all, hpd]
  · intro hpd l
    have hne : p ≠ "." := by
      intro he
      rw [he] at hpd
      exact absurd hpd (by decide)
    apply List.filter_eq_self.mpr
    intro c _
    simp only [hiddenB, h_all, Bool.not_false, Bool.true_and, Bool.not_eq_false']
    rw [pjoin, if_neg hne, startsWithDot_append_ne]
    unfold startsWithDot at hpd ⊢
    rw [String.data_append]
    cases hd : p.data with
    | nil => simp
    | cons c0 rest =>
      rw [hd] at hpd
      simpa using hpd
  · intro s
    simp only [hiddenB, h_all, Bool.not_false, Bool.true_and]
    unfold startsWithDot
    rw [String.data_append]
    simp [show ("/" : String).data = ['/'] from rfl]

/-- Claim C3 witness: the amended theorem applied at a dot-named relative
start, a plain directory with a dot-named child kept by the second pass,
and an absolute path. -/
theorem claim_C3_witness :
    processDir optsC3 ".x" treeC3 0 = ([], none) ∧
    [(".secret", FSNode.ffile 3 0 false true)].filter
        (fun c => !hiddenB optsC3 (pjoin "d" c.1)) =
      [(".secret", FSNode.ffile 3 0 false true)] ∧
    hiddenB optsC3 ("/" ++ "tmp/.hidden") = false :=
  ⟨(claim_C3 optsC3 ".x" rfl).1 (by decide) 0 false true _ 0,
   (claim_C3 optsC3 "d" rfl).2.1 (by decide) _,
   (claim_C3 optsC3 "x" rfl).2.2 "tmp/.hidden"⟩

/-! ## Theorems: order facts for the sort key and claim C4 -/

theorem char_eq_of_toNat_eq {a b : Char} (h : a.toNat = b.toNat) : a = b := by
  unfold Char.toNat at h
  refine Char.eq_of_val_eq ?_
  cases hv : a.val with
  | mk bv =>
    cases hv2 : b.val with
    | mk bv2 =>
      rw [hv, hv2] at h
      simp only [UInt32.toNat] at h
      congr 1
      exact BitVec.toNat_injective h

theorem nameLtB_cons {x y : Char} {xs ys : List Char} :
    nameLtB (x :: xs) (y :: ys) = true ↔
      (x.toNat < y.toNat ∨ (x = y ∧ nameLtB xs ys = true)) := by
  simp [nameLtB]

theorem nameLtB_trans : ∀ {a b c : List Char},
    nameLtB a b = true → nameLtB b c = true → nameLtB a c = true := by
  intro a
  induction a with
  | nil =>
    intro b c hab hbc
    cases b with
    | nil => simp [nameLtB] at hab
    | cons y ys =>
      cases c with
      | nil => simp [nameLtB] at hbc
      | cons z zs => simp [nameLtB]
  | cons x xs ih =>
    intro b c hab hbc
    cases b with
    | nil => simp [nameLtB] at hab
    | cons y ys =>
      cases c with
      | nil => simp [nameLtB] at hbc
      | cons z zs =>
        rw [nameLtB_cons] at hab hbc ⊢
        rcases hab with h1 | ⟨h1, h1r⟩ <;> rcases hbc with h2 | ⟨h2, h2r⟩
        · left; omega
        · left; rw [← h2]; exact h1
        · left; rw [h1]; exact h2
        · right; exact ⟨h1.trans h2, ih h1r h2r⟩

theorem nameLtB_asymm : ∀ {a b : List Char},
    nameLtB a b = true → nameLtB b a = true → False := by
  intro a
  induction a with
  | nil =>
    intro b hab hba
    cases b with
    | nil => simp [nameLtB] at hab
    | cons y ys => simp [nameLtB] at hba
  | cons x xs ih =>
    intro b hab hba
    cases b with
    | nil => simp [nameLtB] at hab
    | cons y ys =>
      rw [nameLtB_cons] at hab hba
      rcases hab with h1 | ⟨h1, h1r⟩ <;> rcases hba with h2 | ⟨h2, h2r⟩
      · omega
      · rw [h2] at h1; omega
      · rw [h1] at h2; omega
      · exact ih h1r h2r

theorem nameLtB_conn : ∀ {a b : List Char},
    nameLtB a b = false → nameLtB b a = false → a = b := by
  intro a
  induction a with
  | nil =>
    intro b hab _
    cases b with
    | nil => rfl
    | cons y ys => simp [nameLtB] at hab
  | cons x xs ih =>
    intro b hab hba
    cases b with
    | nil => simp [nameLtB] at hba
    | cons y ys =>
      have hab2 := (Bool.not_eq_true _).mpr hab
      have hba2 := (Bool.not_eq_true _).mpr hba
      rw [nameLtB_cons] at hab2 hba2
      push_neg at hab2 hba2
      have hxy : x = y := by
        apply char_eq_of_toNat_eq
        omega
      subst hxy
      have h1 : nameLtB xs ys = false := by
        have := hab2.2 rfl
        simpa using this
      have h2 : nameLtB ys xs = false := by
        have := hba2.2 rfl
        simpa using this
      rw [ih h1 h2]

theorem string_eq_of_data_eq {a b : String} (h : a.data = b.data) : a = b := by
  cases a; cases b; simp only [] at h; rw [h]

theorem keyLtB_iff {k1 k2 : Bool × String} :
    keyLtB k1 k2 = true ↔
      ((k1.1 = false ∧ k2.1 = true) ∨
       (k1.1 = k2.1 ∧ nameLtB k1.2.data k2.2.data = true)) := by
  obtain ⟨f1, n1⟩ := k1
  obtain ⟨f2, n2⟩ := k2
  simp [keyLtB]

theorem keyLtB_trans {k1 k2 k3 : Bool × String}
    (h1 : keyLtB k1 k2 = true) (h2 : keyLtB k2 k3 = true) :
    keyLtB k1 k3 = true := by
  rw [keyLtB_iff] at h1 h2 ⊢
  rcases h1 with ⟨ha, hb⟩ | ⟨ha, hb⟩ <;> rcases h2 with ⟨hc, hd⟩ | ⟨hc, hd⟩
  · simp_all
  · left; exact ⟨ha, hc ▸ hb⟩
  · left; exact ⟨ha.trans hc, hd⟩
  · right; exact ⟨ha.trans hc, nameLtB_trans hb hd⟩

theorem keyLtB_asymm {k1 k2 : Bool × String}
    (h1 : keyLtB k1 k2 = true) (h2 : keyLtB k2 k1 = true) : False := by
  rw [keyLtB_iff] at h1 h2
  rcases h1 with ⟨ha, hb⟩ | ⟨ha, hb⟩ <;> rcases h2 with ⟨hc, hd⟩ | ⟨hc, hd⟩
  · simp_all
  · simp_all
  · simp_all
  · exact nameLtB_asymm hb hd

theorem keyLtB_conn {k1 k2 : Bool × String}
    (h1 : keyLtB k1 k2 = false) (h2 : keyLtB k2 k1 = false) : k1 = k2 := by
  obtain ⟨f1, n1⟩ := k1
  obtain ⟨f2, n2⟩ := k2
  have h1b := (Bool.not_eq_true _).mpr h1
  have h2b := (Bool.not_eq_true _).mpr h2
  rw [keyLtB_iff] at h1b h2b
  push_neg at h1b h2b
  cases f1 <;> cases f2
  · have hn1 : nameLtB n1.data n2.data = false := by
      have := h1b.2 rfl
      simpa using this
    have hn2 : nameLtB n2.data n1.data = false := by
      have := h2b.2 rfl
      simpa using this
    rw [string_eq_of_data_eq (nameLtB_conn hn1 hn2)]
  · exact absurd (h1b.1 rfl) (by simp)
  · exact absurd (h2b.1 rfl) (by simp)
  · have hn1 : nameLtB n1.data n2.data = false := by
      have := h1b.2 rfl
      simpa using this
    have hn2 : nameLtB n2.data n1.data = false := by
      have := h2b.2 rfl
      simpa using this
    rw [string_eq_of_data_eq (nameLtB_conn hn1 hn2)]

theorem pairLe_total (a b : String × FSNode) :
    pairLe a b = true ∨ pairLe b a = true := by
  by_cases h1 : keyLtB (keyOf b) (keyOf a) = true
  · right
    have h2 : keyLtB (keyOf a) (keyOf b) = false := by
      rcases Bool.eq_false_or_eq_true (keyLtB (keyOf a) (keyOf b)) with h | h
      · exact (keyLtB_asymm h1 h).elim
      · exact h
    simp [pairLe, h2]
  · left
    simp only [Bool.not_eq_true] at h1
    simp [pairLe, h1]

theorem pairLe_trans {a b c : String × FSNode}
    (h1 : pairLe a b = true) (h2 : pairLe b c = true) : pairLe a c = true := by
  have h1f : keyLtB (keyOf b) (keyOf a) = false := by simpa [pairLe] using h1
  have h2f : keyLtB (keyOf c) (keyOf b) = false := by simpa [pairLe] using h2
  rcases Bool.eq_false_or_eq_true (keyLtB (keyOf c) (keyOf a)) with h3 | h3
  · exfalso
    by_cases h4 : keyLtB (keyOf a) (keyOf b) = true
    · have h5 := keyLtB_trans h3 h4
      simp [h5] at h2f
    · have hk : keyOf a = keyOf b :=
        keyLtB_conn (by simpa using h4) h1f
      rw [hk] at h3
      simp [h3] at h2f
  · simp [pairLe, h3]

theorem pairLe_of_not_ge {a b : String × FSNode} (h : pairLe a b = false) :
    pairLe b a = true := by
  rcases pairLe_total a b with h1 | h1
  · rw [h1] at h; exact Bool.noConfusion h
  · exact h1

theorem ordIns_perm (a : String × FSNode) (l : List (String × FSNode)) :
    List.Perm (ordIns a l) (a :: l) := by
  induction l with
  | nil => simp [ordIns]
  | cons b t ih =>
    unfold ordIns
    split
    · exact List.Perm.refl _
    · exact (ih.cons b).trans (List.Perm.swap a b t)

theorem sortPairs_perm (l : List (String × FSNode)) : List.Perm (sortPairs l) l := by
  induction l with
  | nil => simp [sortPairs]
  | cons a t ih =>
    unfold sortPairs
    exact (ordIns_perm a (sortPairs t)).trans (ih.cons a)

theorem ordIns_pairwise (a : String × FSNode) {l : List (String × FSNode)}
    (h : l.Pairwise (fun x y => pairLe x y = true)) :
    (ordIns a l).Pairwise (fun x y => pairLe x y = true) := by
  induction l with
  | nil => simp [ordIns]
  | cons b t ih =>
    unfold ordIns
    split
    · rename_i hab
      refine List.Pairwise.cons ?_ h
      intro x hx
      rcases List.mem_cons.mp hx with hx | hx
      · rw [hx]; exact hab
      · exact pairLe_trans hab ((List.pairwise_cons.mp h).1 x hx)
    · rename_i hab
      have hba : pairLe b a = true := pairLe_of_not_ge (by simpa using hab)
      refine List.Pairwise.cons ?_ (ih (List.pairwise_cons.mp h).2)
      intro x hx
      rcases mem_ordIns hx with hx | hx
      · rw [hx]; exact hba
      · exact (List.pairwise_cons.mp h).1 x hx

theorem sortPairs_pairwise (l : List (String × FSNode)) :
    (sortPairs l).Pairwise (fun x y => pairLe x y = true) := by
  induction l with
  | nil => simp [sortPairs]
  | cons a t ih => exact ordIns_pairwise a ih

theorem sortPairs_pairwise_lt (l : List (String × FSNode))
    (hnd : (l.map Prod.fst).Nodup) :
    (sortPairs l).Pairwise (fun x y => keyLtB (keyOf x) (keyOf y) = true) := by
  have hperm := sortPairs_perm l
  have hnd2 : ((sortPairs l).map Prod.fst).Nodup :=
    ((hperm.map Prod.fst).nodup_iff).mpr hnd
  have hne : (sortPairs l).Pairwise (fun x y => x.1 ≠ y.1) :=
    List.pairwise_map.mp hnd2
  have hboth := (sortPairs_pairwise l).and hne
  refine hboth.imp ?_
  rintro a b ⟨hab, hne2⟩
  have habf : keyLtB (keyOf b) (keyOf a) = false := by simpa [pairLe] using hab
  rcases Bool.eq_false_or_eq_true (keyLtB (keyOf a) (keyOf b)) with h | h
  · exact h
  · exfalso
    have hk := keyLtB_conn h habf
    exact hne2 (congrArg Prod.snd hk)

theorem toEntry_key (c : String × FSNode) :
    ((toEntry c).is_file, (toEntry c).name) = keyOf c := by
  obtain ⟨n, node⟩ := c
  cases node <;> rfl

theorem is_dir_eq_not_is_file {e : Entry} (hk : e.kind ≠ EKind.enone) :
    e.is_dir = !e.is_file := by
  cases hek : e.kind
  · simp [Entry.is_dir, Entry.is_file, hek]
  · simp [Entry.is_dir, Entry.is_file, hek]
  · exact absurd hek hk

theorem isFolderKind_toJinja (opts : Opts) (e : Entry) (hk : e.kind ≠ EKind.enone) :
    isFolderKind (toJinja opts e) = e.is_dir := by
  cases hek : e.kind
  · cases hsl : e.symlink <;>
      simp [isFolderKind, toJinja, entry_type, Entry.is_dir, Entry.is_file, hek, hsl]
  · cases hsl : e.symlink <;>
      simp [isFolderKind, toJinja, entry_type, Entry.is_dir, Entry.is_file, hek, hsl]
  · exact absurd hek hk

/-- Claim C4 (confirmed): in every generated listing, directory-derived
records (folder / folder-shortcut) all precede file-derived ones, and
within each of the two groups the names are strictly increasing in
code-point order.  `l` ranges over the (distinctly named) enumerated
children of the directory. -/
theorem claim_C4 (opts : Opts) (l : List (String × FSNode)) (js : List JinjaEntry)
    (logs : List String) (hnd : (l.map Prod.fst).Nodup)
    (h : entries2jinja opts ((sortPairs l).map toEntry) = .ok (js, logs)) :
    js.Pairwise (fun a b =>
      (isFolderKind b = true → isFolderKind a = true) ∧
      (isFolderKind a = isFolderKind b →
        nameLtB a.name.data b.name.data = true)) := by
  obtain ⟨l2, hsub, hmap, hkd⟩ := entries2jinja_sublist opts h
  have h1 := sortPairs_pairwise_lt l hnd
  have h2 : ((sortPairs l).map toEntry).Pairwise
      (fun e1 e2 => keyLtB (e1.is_file, e1.name) (e2.is_file, e2.name) = true) := by
    rw [List.pairwise_map]
    refine h1.imp ?_
    intro a b hab
    rw [toEntry_key, toEntry_key]
    exact hab
  have h3 := h2.sublist hsub
  rw [hmap, List.pairwise_map]
  refine List.Pairwise.imp_of_mem ?_ h3
  intro e1 e2 h1m h2m hlt
  have hk1 := hkd e1 h1m
  have hk2 := hkd e2 h2m
  have hf1 := isFolderKind_toJinja opts e1 hk1
  have hf2 := isFolderKind_toJinja opts e2 hk2
  have hd1 := is_dir_eq_not_is_file hk1
  have hd2 := is_dir_eq_not_is_file hk2
  rw [keyLtB_iff] at hlt
  rcases hlt with ⟨ha, hb⟩ | ⟨ha, hb⟩
  · constructor
    · intro hx
      rw [hf2, hd2] at hx
      simp only [] at ha hb
      rw [hb] at hx
      exact absurd hx (by simp)
    · intro hx
      rw [hf1, hf2, hd1, hd2] at hx
      simp only [] at ha hb
      rw [ha, hb] at hx
      exact absurd hx (by simp)
  · constructor
    · intro hx
      simp only [] at ha
      rw [hf1, hd1, ha, ← hd2, ← hf2]
      exact hx
    · intro _
      exact hb

/-- Claim C4 witness: a concrete mixed directory; the sorted listing is
folders `a`, `z` then file `b.txt`, pairwise in the claimed order. -/
theorem claim_C4_witness :
    (((sortPairs lC4).map toEntry).map (toJinja optsD)).Pairwise (fun a b =>
      (isFolderKind b = true → isFolderKind a = true) ∧
      (isFolderKind a = isFolderKind b →
        nameLtB a.name.data b.name.data = true)) :=
  claim_C4 optsD lC4 (((sortPairs lC4).map toEntry).map (toJinja optsD)) []
    (by decide) rfl

/-! ## Theorems: claim C9 (a second run over the written snapshot) -/

theorem attach_all_eq {α : Type} (l : List α) (f : α → Bool) :
    l.attach.all (fun c => f c.1) = l.all f := by
  apply Bool.eq_iff_iff.mpr
  simp only [List.all_eq_true]
  constructor
  · intro h a ha
    exact h ⟨a, ha⟩ (List.mem_attach _ _)
  · intro h x _
    exact h x.1 x.2

theorem nodupKeys_nodup : ∀ {l : List (String × FSNode)},
    nodupKeys l = true → (l.map Prod.fst).Nodup := by
  intro l
  induction l with
  | nil => intro _; simp
  | cons c t ih =>
    intro h
    rw [nodupKeys, Bool.and_eq_true] at h
    rw [List.map_cons, List.nodup_cons]
    refine ⟨?_, ih h.2⟩
    intro hmem
    obtain ⟨d, hd, hd2⟩ := List.mem_map.mp hmem
    have h3 := h.1
    rw [Bool.not_eq_true', List.any_eq_false] at h3
    exact absurd hd2 (by simpa using h3 d hd)

theorem scrubE_fdir (out : String) (mt : Nat) (sl w : Bool)
    (ch : List (String × FSNode)) :
    scrubE out (.fdir mt sl w ch) =
      .fdir mt sl w ((ch.filter (fun c => !(c.1 == out))).map
        (fun c => (c.1, scrubE out c.2))) := by
  rw [scrubE]
  simp only [List.map_subtype, List.unattach_filter, List.unattach_attach]

theorem afterRun_fdir (opts : Opts) (sz mt2 : Nat) (p : String) (mt : Nat)
    (sl w : Bool) (ch : List (String × FSNode)) :
    afterRun opts sz mt2 p (.fdir mt sl w ch) =
      if hiddenB opts p then .fdir mt sl w ch
      else
        .fdir (if ch.any (fun c => c.1 == opts.output_file) then mt else mt2)
          sl w (upsertIndex opts.output_file sz mt2
          (if opts.recursive then
            ch.map (fun c =>
              if globMatchS (globPatt opts) c.1 &&
                  !hiddenB opts (pjoin p c.1) && isDirNode c.2
              then (c.1, afterRun opts sz mt2 (pjoin p c.1) c.2)
              else c)
          else ch)) := by
  conv_lhs => rw [afterRun]
  simp only [List.map_subtype, List.unattach_attach]

theorem WFb_fdir (mt : Nat) (sl w : Bool) (ch : List (String × FSNode)) :
    WFb (.fdir mt sl w ch) = (nodupKeys ch && ch.all (fun c => WFb c.2)) := by
  rw [WFb]
  congr 1
  exact attach_all_eq ch (fun c => WFb c.2)

theorem NoDirIdxB_fdir (out : String) (mt : Nat) (sl w : Bool)
    (ch : List (String × FSNode)) :
    NoDirIdxB out (.fdir mt sl w ch) =
      ((ch.all (fun c => !(c.1 == out) || !isDirNode c.2)) &&
       ch.all (fun c => NoDirIdxB out c.2)) := by
  rw [NoDirIdxB]
  congr 1
  exact attach_all_eq ch (fun c => NoDirIdxB out c.2)

theorem AllIdxB_fdir (out : String) (mt : Nat) (sl w : Bool)
    (ch : List (String × FSNode)) :
    AllIdxB out (.fdir mt sl w ch) =
      (ch.any (fun c => c.1 == out) && ch.all (fun c => AllIdxB out c.2)) := by
  rw [AllIdxB]
  congr 1
  exact attach_all_eq ch (fun c => AllIdxB out c.2)

theorem AllIdxB_ffile (out : String) (a b : Nat) (c d : Bool) :
    AllIdxB out (.ffile a b c d) = true := by
  rw [AllIdxB]
  intro _ _ _ _ h
  exact FSNode.noConfusion h

theorem AllIdxB_fdangling (out : String) (c d : Bool) :
    AllIdxB out (.fdangling c d) = true := by
  rw [AllIdxB]
  intro _ _ _ _ h
  exact FSNode.noConfusion h

theorem afterRun_ffile (opts : Opts) (sz mt2 : Nat) (p : String)
    (a b : Nat) (c d : Bool) :
    afterRun opts sz mt2 p (.ffile a b c d) = .ffile a b c d := by
  rw [afterRun]
  intro _ _ _ _ h
  exact FSNode.noConfusion h

theorem afterRun_fdangling (opts : Opts) (sz mt2 : Nat) (p : String)
    (c d : Bool) :
    afterRun opts sz mt2 p (.fdangling c d) = .fdangling c d := by
  rw [afterRun]
  intro _ _ _ _ h
  exact FSNode.noConfusion h

theorem scrubE_ffile (out : String) (a b : Nat) (c d : Bool) :
    scrubE out (.ffile a b c d) = .ffile a b c d := by
  rw [scrubE]
  intro _ _ _ _ h
  exact FSNode.noConfusion h

theorem scrubE_fdangling (out : String) (c d : Bool) :
    scrubE out (.fdangling c d) = .fdangling c d := by
  rw [scrubE]
  intro _ _ _ _ h
  exact FSNode.noConfusion h

theorem filter_map_nameInv {g : String × FSNode → String × FSNode}
    (hg : ∀ c, (g c).1 = c.1) (q0 : String → Bool) (l : List (String × FSNode)) :
    (l.map g).filter (fun c => q0 c.1) = (l.filter (fun c => q0 c.1)).map g := by
  rw [List.filter_map]
  congr 1
  apply List.filter_congr
  intro x _
  simp [Function.comp, hg]

theorem upsert_filter_out (out : String) (sz mt2 : Nat)
    (X : List (String × FSNode)) :
    (upsertIndex out sz mt2 X).filter (fun c => !(c.1 == out)) =
      X.filter (fun c => !(c.1 == out)) := by
  unfold upsertIndex
  split
  · rw [filter_map_nameInv (fun c => by split <;> rfl) (fun n => !(n == out)) X]
    conv_rhs => rw [← List.map_id (List.filter (fun c => !(c.1 == out)) X)]
    apply List.map_congr_left
    intro c hc
    have hq : (!(c.1 == out)) = true := (List.mem_filter.mp hc).2
    have hne : ¬(c.1 == out) = true := by simpa using hq
    rw [if_neg hne]
    rfl
  · rw [List.filter_append]
    simp

/-- The writes of a run change nothing, modulo scrubbing, when every
directory already holds a child with the output filename: each write is
then an in-place overwrite, no directory mtime changes, and the scrubbed
snapshot is invariant under a run. -/
theorem scrubE_afterRun (opts : Opts) (sz mt2 : Nat) :
    ∀ (n : Nat) (node : FSNode), sizeOf node ≤ n →
      AllIdxB opts.output_file node = true → ∀ p : String,
      scrubE opts.output_file (afterRun opts sz mt2 p node) =
        scrubE opts.output_file node := by
  intro n
  induction n with
  | zero =>
    intro node hsz
    exfalso
    cases node <;> simp at hsz
  | succ n ih =>
    intro node hsz hall p
    cases node with
    | ffile a b c d => rw [afterRun_ffile]
    | fdangling c d => rw [afterRun_fdangling]
    | fdir mt sl w ch =>
      rw [AllIdxB_fdir, Bool.and_eq_true] at hall
      rw [afterRun_fdir]
      by_cases hh : hiddenB opts p = true
      · rw [if_pos hh]
      · rw [if_neg hh]
        rw [if_pos hall.1]
        rw [scrubE_fdir, scrubE_fdir]
        congr 1
        rw [upsert_filter_out]
        by_cases hrec : opts.recursive = true
        · rw [if_pos hrec]
          rw [filter_map_nameInv (fun c => by split <;> rfl)
            (fun n2 => !(n2 == opts.output_file)) ch]
          rw [List.map_map]
          apply List.map_congr_left
          intro c hc
          have hcch : c ∈ ch := (List.mem_filter.mp hc).1
          simp only [Function.comp]
          split
          · rename_i hcond
            have hsz2 : sizeOf c.2 ≤ n := by
              have h2 := sizeOf_child (n := c.1) (x := c.2)
                (by rw [show (c.1, c.2) = c from rfl]; exact hcch) mt sl w
              omega
            have hall2 : AllIdxB opts.output_file c.2 = true :=
              List.all_eq_true.mp hall.2 c hcch
            simp only []
            rw [ih c.2 hsz2 hall2 (pjoin p c.1)]
          · rfl
        · rw [if_neg hrec]

theorem isFileNode_scrubE (out : String) (x : FSNode) :
    isFileNode (scrubE out x) = isFileNode x := by
  cases x
  · rw [scrubE_ffile]
  · rw [scrubE_fdir]; rfl
  · rw [scrubE_fdangling]

theorem isDirNode_scrubE (out : String) (x : FSNode) :
    isDirNode (scrubE out x) = isDirNode x := by
  cases x
  · rw [scrubE_ffile]
  · rw [scrubE_fdir]; rfl
  · rw [scrubE_fdangling]

theorem toEntry_scrubPair (out : String) (c : String × FSNode) :
    toEntry (c.1, scrubE out c.2) = toEntry c := by
  obtain ⟨n, x⟩ := c
  cases x
  · rw [scrubE_ffile]
  · rw [scrubE_fdir]; rfl
  · rw [scrubE_fdangling]

theorem keyOf_scrubPair (out : String) (c : String × FSNode) :
    keyOf (c.1, scrubE out c.2) = keyOf c := by
  unfold keyOf
  rw [isFileNode_scrubE]

theorem pairLe_keyInv {a b a2 b2 : String × FSNode}
    (ha : keyOf a2 = keyOf a) (hb : keyOf b2 = keyOf b) :
    pairLe a2 b2 = pairLe a b := by
  unfold pairLe
  rw [ha, hb]

theorem ordIns_map_keyInv {f : String × FSNode → String × FSNode}
    (hf : ∀ c, keyOf (f c) = keyOf c) (a : String × FSNode) :
    ∀ l : List (String × FSNode), ordIns (f a) (l.map f) = (ordIns a l).map f := by
  intro l
  induction l with
  | nil => simp [ordIns]
  | cons b t ih =>
    rw [List.map_cons]
    unfold ordIns
    rw [pairLe_keyInv (hf a) (hf b)]
    split
    · rw [List.map_cons, List.map_cons]
    · rw [List.map_cons, ih]

theorem sortPairs_map_keyInv {f : String × FSNode → String × FSNode}
    (hf : ∀ c, keyOf (f c) = keyOf c) :
    ∀ l : List (String × FSNode), sortPairs (l.map f) = (sortPairs l).map f := by
  intro l
  induction l with
  | nil => simp [sortPairs]
  | cons a t ih =>
    rw [List.map_cons]
    unfold sortPairs
    rw [ih, ordIns_map_keyInv hf]

theorem sortPairs_filter_canonical (q : String × FSNode → Bool)
    (l : List (String × FSNode)) (hnd : (l.map Prod.fst).Nodup) :
    sortPairs (l.filter q) = (sortPairs l).filter q := by
  have hnd2 : ((l.filter q).map Prod.fst).Nodup :=
    hnd.sublist ((List.filter_sublist l).map Prod.fst)
  have hs1 := sortPairs_pairwise_lt (l.filter q) hnd2
  have hs2 := (sortPairs_pairwise_lt l hnd).filter q
  have hperm : List.Perm (sortPairs (l.filter q)) ((sortPairs l).filter q) :=
    (sortPairs_perm (l.filter q)).trans ((sortPairs_perm l).filter q).symm
  exact @List.eq_of_perm_of_sorted _
    (fun x y => keyLtB (keyOf x) (keyOf y) = true)
    ⟨fun a b h1 h2 => (keyLtB_asymm h1 h2).elim⟩ _ _ hperm hs1 hs2

theorem keptPairs_map_nameInv (opts : Opts) (p : String)
    {f : String × FSNode → String × FSNode} (hf : ∀ c, (f c).1 = c.1)
    (l : List (String × FSNode)) :
    keptPairs opts p (l.map f) = (keptPairs opts p l).map f := by
  unfold keptPairs
  rw [filter_map_nameInv hf (fun n => globMatchS (globPatt opts) n) l]
  rw [filter_map_nameInv hf (fun n => !hiddenB opts (pjoin p n)) _]

theorem keptPairs_filter_comm (opts : Opts) (p : String)
    (q : String × FSNode → Bool) (l : List (String × FSNode)) :
    keptPairs opts p (l.filter q) = (keptPairs opts p l).filter q := by
  unfold keptPairs
  rw [List.filter_comm _ q l, List.filter_comm _ q _]

theorem keptPairs_sublist (opts : Opts) (p : String)
    (l : List (String × FSNode)) : (keptPairs opts p l).Sublist l :=
  (List.filter_sublist _).trans (List.filter_sublist l)

theorem toEntry_name (c : String × FSNode) : (toEntry c).name = c.1 := by
  obtain ⟨n, x⟩ := c
  cases x <;> rfl

theorem e2j_filter_name (opts : Opts) :
    ∀ l : List Entry,
      entries2jinja opts (l.filter (fun e => !(e.name == opts.output_file))) =
        entries2jinja opts l := by
  intro l
  induction l with
  | nil => rfl
  | cons e t ih =>
    rw [List.filter_cons]
    by_cases he : (e.name == opts.output_file) = true
    · rw [if_neg (by simp [he])]
      have hname : e.name = opts.output_file := by simpa using he
      conv_rhs => rw [entries2jinja]
      rw [if_pos (congrArg strLower hname)]
      exact ih
    · rw [if_pos (by simp [he])]
      simp only [entries2jinja]
      by_cases h1 : strLower e.name = strLower opts.output_file
      · rw [if_pos h1, if_pos h1]
        exact ih
      · rw [if_neg h1, if_neg h1]
        by_cases h2 : (!e.symlink && !e.writable) = true
        · rw [if_pos h2, if_pos h2, ih]
        · rw [if_neg h2, if_neg h2]
          cases hp : entry_path opts e with
          | none => rfl
          | some q => simp only []; rw [ih]

/-- A run reads nothing from children named exactly `opts.output_file`
(they are excluded from the listing by name and, under `NoDirIdxB`, none
of them is a directory to recurse into), and nothing below them: the
scrubbed snapshot produces the identical run. -/
theorem processDir_scrubE (opts : Opts) :
    ∀ (n : Nat) (node : FSNode), sizeOf node ≤ n →
      WFb node = true → NoDirIdxB opts.output_file node = true →
      ∀ (p : String) (level : Nat),
        processDir opts p (scrubE opts.output_file node) level =
          processDir opts p node level := by
  intro n
  induction n with
  | zero =>
    intro node hsz
    exfalso
    cases node <;> simp at hsz
  | succ n ih =>
    intro node hsz hwf hnd p level
    cases node with
    | ffile a b c d => rw [scrubE_ffile]
    | fdangling c d => rw [scrubE_fdangling]
    | fdir mt sl w ch =>
      rw [scrubE_fdir]
      rw [processDir_fdir, processDir_fdir]
      by_cases hh : hiddenB opts p = true
      · rw [if_pos hh, if_pos hh]
      · rw [if_neg hh, if_neg hh]
        simp only []
        have hndch : (ch.map Prod.fst).Nodup := by
          rw [WFb_fdir, Bool.and_eq_true] at hwf
          exact nodupKeys_nodup hwf.1
        have hndkept : ((keptPairs opts p ch).map Prod.fst).Nodup :=
          hndch.sublist ((keptPairs_sublist opts p ch).map Prod.fst)
        have hkept :
            sortPairs (keptPairs opts p
              ((ch.filter (fun c => !(c.1 == opts.output_file))).map
                (fun c => (c.1, scrubE opts.output_file c.2)))) =
            (((sortPairs (keptPairs opts p ch)).filter
                (fun c => !(c.1 == opts.output_file))).map
              (fun c => (c.1, scrubE opts.output_file c.2))) := by
          rw [keptPairs_map_nameInv opts p
            (f := fun c => (c.1, scrubE opts.output_file c.2)) (fun c => rfl)]
          rw [keptPairs_filter_comm]
          rw [sortPairs_map_keyInv (fun c => keyOf_scrubPair _ c)]
          rw [sortPairs_filter_canonical _ _ hndkept]
        rw [hkept]
        have hents :
            ((((sortPairs (keptPairs opts p ch)).filter
                (fun c => !(c.1 == opts.output_file))).map
              (fun c => (c.1, scrubE opts.output_file c.2))).map toEntry) =
            (((sortPairs (keptPairs opts p ch)).map toEntry).filter
              (fun e => !(e.name == opts.output_file))) := by
          rw [List.map_map]
          rw [show (toEntry ∘ fun c => (c.1, scrubE opts.output_file c.2)) =
            toEntry from funext (fun c => toEntry_scrubPair _ c)]
          rw [List.filter_map]
          congr 1
          apply List.filter_congr
          intro x _
          simp only [Function.comp]
          rw [toEntry_name]
        rw [hents, e2j_filter_name]
        cases hres : entries2jinja opts
            ((sortPairs (keptPairs opts p ch)).map toEntry) with
        | error s => rfl
        | ok pr =>
          simp only []
          by_cases hrec : opts.recursive = true
          · rw [if_pos hrec, if_pos hrec]
            have hdirs :
                ((((sortPairs (keptPairs opts p ch)).filter
                    (fun c => !(c.1 == opts.output_file))).map
                  (fun c => (c.1, scrubE opts.output_file c.2))).filter
                  (fun c => isDirNode c.2)) =
                (((sortPairs (keptPairs opts p ch)).filter
                    (fun c => isDirNode c.2)).map
                  (fun c => (c.1, scrubE opts.output_file c.2))) := by
              rw [List.filter_map]
              rw [show ((fun c => isDirNode c.2) ∘
                  (fun c => (c.1, scrubE opts.output_file c.2))) =
                (fun c : String × FSNode => isDirNode c.2) from
                funext (fun c => isDirNode_scrubE _ c.2)]
              rw [List.filter_comm]
              congr 1
              apply List.filter_eq_self.mpr
              intro c hc
              have hcdir : isDirNode c.2 = true := (List.mem_filter.mp hc).2
              have hcch : c ∈ ch :=
                (keptPairs_sublist opts p ch).subset
                  (mem_sortPairs (List.mem_filter.mp hc).1)
              rw [NoDirIdxB_fdir, Bool.and_eq_true] at hnd
              have := (List.all_eq_true.mp hnd.1) c hcch
              rcases Bool.or_eq_true_iff.mp this with h3 | h3
              · exact h3
              · rw [hcdir] at h3
                exact absurd h3 (by simp)
            have hlist :
                (((((sortPairs (keptPairs opts p ch)).filter
                      (fun c => !(c.1 == opts.output_file))).map
                    (fun c => (c.1, scrubE opts.output_file c.2))).filter
                    (fun c => isDirNode c.2)).map
                  (fun c => processDir opts (pjoin p c.1) c.2 (level + 1))) =
                (((sortPairs (keptPairs opts p ch)).filter
                    (fun c => isDirNode c.2)).map
                  (fun c => processDir opts (pjoin p c.1) c.2 (level + 1))) := by
              rw [hdirs, List.map_map]
              apply List.map_congr_left
              intro c hc
              have hcch : c ∈ ch :=
                (keptPairs_sublist opts p ch).subset
                  (mem_sortPairs (List.mem_filter.mp hc).1)
              simp only [Function.comp]
              have hsz2 : sizeOf c.2 ≤ n := by
                have h2 := sizeOf_child (n := c.1) (x := c.2)
                  (by rw [show (c.1, c.2) = c from rfl]; exact hcch) mt sl w
                omega
              have hwf2 : WFb c.2 = true := by
                rw [WFb_fdir, Bool.and_eq_true] at hwf
                exact (List.all_eq_true.mp hwf.2) c hcch
              have hnd2 : NoDirIdxB opts.output_file c.2 = true := by
                rw [NoDirIdxB_fdir, Bool.and_eq_true] at hnd
                exact (List.all_eq_true.mp hnd.2) c hcch
              exact ih c.2 hsz2 hwf2 hnd2 (pjoin p c.1) (level + 1)
            rw [hlist]
          · rw [if_neg hrec, if_neg hrec]

theorem WFb_ffile (a b : Nat) (c d : Bool) : WFb (.ffile a b c d) = true := by
  rw [WFb]
  intro _ _ _ _ h
  exact FSNode.noConfusion h

theorem WFb_fdangling (c d : Bool) : WFb (.fdangling c d) = true := by
  rw [WFb]
  intro _ _ _ _ h
  exact FSNode.noConfusion h

theorem NoDirIdxB_ffile (out : String) (a b : Nat) (c d : Bool) :
    NoDirIdxB out (.ffile a b c d) = true := by
  rw [NoDirIdxB]
  intro _ _ _ _ h
  exact FSNode.noConfusion h

theorem NoDirIdxB_fdangling (out : String) (c d : Bool) :
    NoDirIdxB out (.fdangling c d) = true := by
  rw [NoDirIdxB]
  intro _ _ _ _ h
  exact FSNode.noConfusion h

theorem any_name_map_nameInv {g : String × FSNode → String × FSNode}
    (hg : ∀ c, (g c).1 = c.1) (l : List (String × FSNode)) (s : String) :
    (l.map g).any (fun d => d.1 == s) = l.any (fun d => d.1 == s) := by
  rw [List.any_map]
  congr 1
  funext d
  simp [Function.comp, hg]

theorem nodupKeys_map_nameInv {g : String × FSNode → String × FSNode}
    (hg : ∀ c, (g c).1 = c.1) :
    ∀ l : List (String × FSNode), nodupKeys (l.map g) = nodupKeys l := by
  intro l
  induction l with
  | nil => rfl
  | cons c t ih =>
    rw [List.map_cons]
    unfold nodupKeys
    rw [ih, any_name_map_nameInv hg, hg]

theorem nodupKeys_append_new (y : String × FSNode) :
    ∀ l : List (String × FSNode), nodupKeys l = true →
      l.any (fun c => c.1 == y.1) = false → nodupKeys (l ++ [y]) = true := by
  intro l
  induction l with
  | nil => intro _ _; simp [nodupKeys]
  | cons c t ih =>
    intro h ha
    rw [nodupKeys, Bool.and_eq_true] at h
    rw [List.any_cons, Bool.or_eq_false_iff] at ha
    rw [List.cons_append, nodupKeys, Bool.and_eq_true]
    refine ⟨?_, ih h.2 ha.2⟩
    have hgoal : ((t ++ [y]).any (fun d => d.1 == c.1)) = false := by
      rw [List.any_append, Bool.or_eq_false_iff]
      constructor
      · simpa using h.1
      · simp only [List.any_cons, List.any_nil, Bool.or_false]
        have hne : ¬(c.1 = y.1) := by simpa using ha.1
        simpa using fun he => hne he.symm
    rw [hgoal]
    rfl

theorem isDirNode_afterRun (opts : Opts) (sz mt2 : Nat) (p : String) (x : FSNode) :
    isDirNode (afterRun opts sz mt2 p x) = isDirNode x := by
  cases x
  · rw [afterRun_ffile]
  · rw [afterRun_fdir]; split <;> rfl
  · rw [afterRun_fdangling]

theorem upsert_preserves_wf (out : String) (sz mt2 : Nat)
    (X : List (String × FSNode)) (hnk : nodupKeys X = true)
    (hwfall : X.all (fun c => WFb c.2) = true) :
    nodupKeys (upsertIndex out sz mt2 X) = true ∧
      (upsertIndex out sz mt2 X).all (fun c => WFb c.2) = true := by
  unfold upsertIndex
  split
  · constructor
    · rw [nodupKeys_map_nameInv (fun c => by split <;> rfl)]
      exact hnk
    · rw [List.all_map]
      rw [List.all_eq_true] at hwfall ⊢
      intro c hc
      simp only [Function.comp]
      split
      · exact WFb_ffile _ _ _ _
      · exact hwfall c hc
  · rename_i hany
    constructor
    · apply nodupKeys_append_new _ _ hnk
      exact (Bool.not_eq_true _) ▸ hany
    · rw [List.all_append, Bool.and_eq_true]
      exact ⟨hwfall, by simp [WFb_ffile]⟩

theorem upsert_preserves_nodir (out : String) (sz mt2 : Nat)
    (X : List (String × FSNode))
    (h1 : X.all (fun c => !(c.1 == out) || !isDirNode c.2) = true)
    (h2 : X.all (fun c => NoDirIdxB out c.2) = true) :
    (upsertIndex out sz mt2 X).all
        (fun c => !(c.1 == out) || !isDirNode c.2) = true ∧
      (upsertIndex out sz mt2 X).all (fun c => NoDirIdxB out c.2) = true := by
  unfold upsertIndex
  split
  · constructor
    · rw [List.all_map]
      rw [List.all_eq_true] at h1 ⊢
      intro c hc
      simp only [Function.comp]
      split
      · simp [isDirNode]
      · exact h1 c hc
    · rw [List.all_map]
      rw [List.all_eq_true] at h2 ⊢
      intro c hc
      simp only [Function.comp]
      split
      · exact NoDirIdxB_ffile _ _ _ _ _
      · exact h2 c hc
  · constructor
    · rw [List.all_append, Bool.and_eq_true]
      exact ⟨h1, by simp [isDirNode]⟩
    · rw [List.all_append, Bool.and_eq_true]
      exact ⟨h2, by simp [NoDirIdxB_ffile]⟩

theorem WFb_afterRun (opts : Opts) (sz mt2 : Nat) :
    ∀ (n : Nat) (node : FSNode), sizeOf node ≤ n → WFb node = true →
      ∀ p : String, WFb (afterRun opts sz mt2 p node) = true := by
  intro n
  induction n with
  | zero =>
    intro node hsz
    exfalso
    cases node <;> simp at hsz
  | succ n ih =>
    intro node hsz hwf p
    cases node with
    | ffile a b c d => rw [afterRun_ffile]; exact hwf
    | fdangling c d => rw [afterRun_fdangling]; exact hwf
    | fdir mt sl w ch =>
      rw [afterRun_fdir]
      by_cases hh : hiddenB opts p = true
      · rw [if_pos hh]; exact hwf
      · rw [if_neg hh]
        rw [WFb_fdir, Bool.and_eq_true] at hwf
        rw [WFb_fdir, Bool.and_eq_true]
        by_cases hrec : opts.recursive = true
        · rw [if_pos hrec]
          apply upsert_preserves_wf
          · rw [nodupKeys_map_nameInv (fun c => by split <;> rfl)]
            exact hwf.1
          · rw [List.all_map, List.all_eq_true]
            intro c hc
            simp only [Function.comp]
            split
            · have hsz2 : sizeOf c.2 ≤ n := by
                have h2 := sizeOf_child (n := c.1) (x := c.2)
                  (by rw [show (c.1, c.2) = c from rfl]; exact hc) mt sl w
                omega
              exact ih c.2 hsz2 (List.all_eq_true.mp hwf.2 c hc) (pjoin p c.1)
            · exact List.all_eq_true.mp hwf.2 c hc
        · rw [if_neg hrec]
          exact upsert_preserves_wf _ _ _ _ hwf.1 hwf.2

theorem NoDirIdxB_afterRun (opts : Opts) (sz mt2 : Nat) :
    ∀ (n : Nat) (node : FSNode), sizeOf node ≤ n →
      NoDirIdxB opts.output_file node = true →
      ∀ p : String, NoDirIdxB opts.output_file (afterRun opts sz mt2 p node) = true := by
  intro n
  induction n with
  | zero =>
    intro node hsz
    exfalso
    cases node <;> simp at hsz
  | succ n ih =>
    intro node hsz hnd p
    cases node with
    | ffile a b c d => rw [afterRun_ffile]; exact hnd
    | fdangling c d => rw [afterRun_fdangling]; exact hnd
    | fdir mt sl w ch =>
      rw [afterRun_fdir]
      by_cases hh : hiddenB opts p = true
      · rw [if_pos hh]; exact hnd
      · rw [if_neg hh]
        rw [NoDirIdxB_fdir, Bool.and_eq_true] at hnd
        rw [NoDirIdxB_fdir, Bool.and_eq_true]
        by_cases hrec : opts.recursive = true
        · rw [if_pos hrec]
          apply upsert_preserves_nodir
          · rw [List.all_map, List.all_eq_true]
            intro c hc
            simp only [Function.comp]
            split
            · simp only []
              rw [isDirNode_afterRun]
              exact List.all_eq_true.mp hnd.1 c hc
            · exact List.all_eq_true.mp hnd.1 c hc
          · rw [List.all_map, List.all_eq_true]
            intro c hc
            simp only [Function.comp]
            split
            · have hsz2 : sizeOf c.2 ≤ n := by
                have h2 := sizeOf_child (n := c.1) (x := c.2)
                  (by rw [show (c.1, c.2) = c from rfl]; exact hc) mt sl w
                omega
              exact ih c.2 hsz2 (List.all_eq_true.mp hnd.2 c hc) (pjoin p c.1)
            · exact List.all_eq_true.mp hnd.2 c hc
        · rw [if_neg hrec]
          exact upsert_preserves_nodir _ _ _ _ hnd.1 hnd.2

/-- Claim C9 (amended): on a well-formed snapshot (distinct child names,
and no directory named like the output file, on which the write itself
could not succeed) in which every directory already carries a child with
the configured output filename — so each write of a run is an in-place
overwrite and no directory modification time changes — running the tool
again on the snapshot as modified by a completed run produces
byte-identical outputs: the writes and final status coincide exactly with
those of the first run.  Without that condition the claim fails: creating
a new index file updates the containing directory's modification time,
which the next run renders into the parent listing (see the
counterexample). -/
theorem claim_C9 (opts : Opts) (t : FSNode) (sz mt2 : Nat)
    (hwf : WFb t = true)
    (hnd : NoDirIdxB opts.output_file t = true)
    (hall : AllIdxB opts.output_file t = true)
    (hok : (runTool opts t).2 = none) :
    runTool opts (afterRun opts sz mt2 opts.top_dir t) = runTool opts t := by
  unfold runTool
  have h1 := processDir_scrubE opts (sizeOf (afterRun opts sz mt2 opts.top_dir t))
      (afterRun opts sz mt2 opts.top_dir t) (le_refl _)
      (WFb_afterRun opts sz mt2 (sizeOf t) t (le_refl _) hwf opts.top_dir)
      (NoDirIdxB_afterRun opts sz mt2 (sizeOf t) t (le_refl _) hnd opts.top_dir)
      opts.top_dir 0
  have h2 := scrubE_afterRun opts sz mt2 (sizeOf t) t (le_refl _) hall opts.top_dir
  have h3 := processDir_scrubE opts (sizeOf t) t (le_refl _) hwf hnd opts.top_dir 0
  rw [← h1, h2, h3]

/-- Claim C9 counterexample: on a fresh recursive tree — a start directory
holding one empty subdirectory and no index files yet — the first run
creates sub/index.html, a new directory entry whose creation updates the
modification time of sub; the second run renders the new time into the
parent listing, so its writes are not byte-identical to the first
run's. -/
theorem claim_C9_counterexample :
    runTool optsD (afterRun optsD 11 13 optsD.top_dir treeC9f) ≠
      runTool optsD treeC9f := by
  have hA : afterRun optsD 11 13 optsD.top_dir treeC9f =
      .fdir 13 false true
        [("sub", .fdir 13 false true [("index.html", .ffile 11 13 false true)]),
         ("index.html", .ffile 11 13 false true)] := by
    simp [afterRun_fdir, optsD, treeC9f, hiddenB, startsWithDot, globMatchS,
      globPatt, globMatch, splitClass, findClose, classMatches, pjoin,
      isDirNode, upsertIndex]
  rw [hA]
  intro he
  have h1 := congrArg (fun r => (r.1.headD ("", "")).2) he
  simp [runTool, optsD, treeC9f, processDir_fdir, keptPairs, globMatchS,
    globPatt, globMatch, splitClass, findClose, classMatches, hiddenB,
    startsWithDot, sortPairs, ordIns, pairLe, keyLtB, keyOf, nameLtB,
    isFileNode, isDirNode, entries2jinja, toEntry, pjoin, collectRuns,
    strLower, List.filter, entry_path, renderHTML, renderJinjaEntry, toJinja,
    entry_type, Entry.is_dir, Entry.is_file, isoTimestamp, humanTimestamp,
    symlinkLogs] at h1
  all_goals exact absurd h1 (by decide)

/-- Claim C9 witness: a concrete two-level tree that already carries its
index files everywhere; rerunning on the post-run snapshot reproduces the
outputs. -/
theorem claim_C9_witness :
    runTool optsD (afterRun optsD 11 13 optsD.top_dir treeC9) =
      runTool optsD treeC9 :=
  claim_C9 optsD treeC9 11 13
    (by simp [treeC9, WFb_fdir, nodupKeys, WFb_ffile])
    (by simp [treeC9, NoDirIdxB_fdir, NoDirIdxB_ffile, isDirNode, optsD])
    (by simp [treeC9, AllIdxB_fdir, AllIdxB_ffile, optsD])
    (by simp [runTool, optsD, treeC9, processDir_fdir, keptPairs, globMatchS,
      globPatt, globMatch, splitClass, findClose, classMatches, hiddenB,
      startsWithDot, sortPairs, ordIns, pairLe, keyLtB, keyOf, nameLtB,
      isFileNode, isDirNode, entries2jinja, toEntry, pjoin, collectRuns,
      strLower, List.filter, entry_path])

end Indexer
